import Mathlib

/-!
Verification development for the Fast-Accent-Translator reconciliation core.

The Python sources embedded here (shallowly, with machine floats idealized as
exact rationals `ℚ` and Python `int` as `ℤ`/`ℕ`) are:
  * `backend/app/services/diarization_matcher.py`
      (`normalize_text`, `text_similarity`, `align_sentences_with_whisper`,
       `assign_speakers_to_sentences`)
  * `backend/app/api/v1/routers/ws_upload.py`
      (`merge_asr_and_diarization`, `merge_consecutive_same_speaker`,
       `fallback_merge_with_full_text`, the row-creation loop of
       `save_formatted_sentences`)
  * `backend/app/services/hallucination_detector.py`
      (`HallucinationDetector.detect_from_whisper` and its four checks)
Strings are modelled over their character lists; Python's `\w`/`\s` character
classes are taken at their ASCII meaning.
-/

namespace FastAccent

/-! ## Python string primitives -/

/-- Python's whitespace class `\s` (ASCII part): space, tab, newline,
carriage return, vertical tab, form feed. -/
def pyIsSpace (c : Char) : Bool :=
  c = ' ' ∨ c = '\t' ∨ c = '\n' ∨ c = '\r' ∨ c = '\x0b' ∨ c = '\x0c'

/-- Python's word class `\w` (ASCII part): letters, digits, underscore. -/
def pyIsWord (c : Char) : Bool :=
  c.isAlphanum ∨ c = '_'

/-- `str.strip()` on a character list: drop leading and trailing whitespace. -/
def stripL (l : List Char) : List Char :=
  ((l.dropWhile pyIsSpace).reverse.dropWhile pyIsSpace).reverse

/-- `str.strip()`. -/
def pyStrip (s : String) : String :=
  String.mk (stripL s.data)

/-- Helper for `str.split()`: accumulate the current (reversed) token while
scanning; whitespace runs separate tokens, empty tokens are dropped. -/
def splitAux : List Char → List Char → List (List Char)
  | [], acc => if acc = [] then [] else [acc.reverse]
  | c :: cs, acc =>
    if pyIsSpace c then
      if acc = [] then splitAux cs [] else acc.reverse :: splitAux cs []
    else
      splitAux cs (c :: acc)

/-- `str.split()` (no argument): split on runs of whitespace, no empty parts. -/
def pySplit (s : String) : List String :=
  (splitAux s.data []).map String.mk

/-- `" ".join(parts)`. -/
def joinSp : List String → String
  | [] => ""
  | [w] => w
  | w :: ws => w ++ " " ++ joinSp ws

/-- `str.lower()` characterwise (ASCII). -/
def pyLower (s : String) : String :=
  String.mk (s.data.map Char.toLower)

/-- Helper for `re.sub(r'\s+', ' ', text)`: each maximal whitespace run
becomes a single space; the flag records whether the previous character
was part of a whitespace run. -/
def collapseWsAux : Bool → List Char → List Char
  | _, [] => []
  | prevWs, c :: cs =>
    if pyIsSpace c then
      if prevWs then collapseWsAux true cs else ' ' :: collapseWsAux true cs
    else
      c :: collapseWsAux false cs

/-- `re.sub(r'\s+', ' ', text)`. -/
def collapseWs (l : List Char) : List Char :=
  collapseWsAux false l

/--
`diarization_matcher.normalize_text`: lowercase, remove punctuation
(`re.sub(r'[^\w\s]', '', ·)` keeps exactly word and whitespace characters),
collapse whitespace runs to one space, strip.
-/
def normalize_text (text : String) : String :=
  let lowered := (pyLower text).data
  let noPunct := lowered.filter (fun c => pyIsWord c ∨ pyIsSpace c)
  String.mk (stripL (collapseWs noPunct))

/-! ## difflib.SequenceMatcher (isjunk = None, over character lists)

`text_similarity` calls `SequenceMatcher(None, norm1, norm2).ratio()`.
`ratio()` is `2 * M / (len(a) + len(b))` where `M` is the total size of the
matching blocks; the blocks come from recursive `find_longest_match` calls.
With `isjunk = None` the junk set is empty, so the two junk-extension loops
of `find_longest_match` never fire and are omitted. -/

/-- `__chain_b`'s `b2j[c]`: the positions of `c` in `b`, ascending. -/
def b2j (b : List Char) (c : Char) : List Nat :=
  (List.range b.length).filter (fun j => b.getD j ' ' = c)

/-- `b2j` after the autojunk purge: with `len(b) >= 200`, characters occurring
more than `len(b) // 100 + 1` times are dropped ("popular" elements). -/
def b2jA (b : List Char) (c : Char) : List Nat :=
  let js := b2j b c
  if 200 ≤ b.length ∧ b.length / 100 + 1 < js.length then [] else js

/-- `j2len.get(j, 0)` on an association list. -/
def lookupD (l : List (Nat × Nat)) (k : Nat) : Nat :=
  ((l.find? (fun p => p.1 = k)).map (fun p => p.2)).getD 0

/-- One `j` step of `find_longest_match`'s inner loop: extend the diagonal
run ending at `(i, j)` and update the best block when it got longer.
`j2lenOld` is the previous row's `j2len`; Python's `j2len.get(j-1, 0)` reads
`-1` (never a key) when `j = 0`. -/
def flmProcessJ (j2lenOld : List (Nat × Nat)) (i : Nat)
    (st : (Nat × Nat × Nat) × List (Nat × Nat)) (j : Nat) :
    (Nat × Nat × Nat) × List (Nat × Nat) :=
  let k := (if j = 0 then 0 else lookupD j2lenOld (j - 1)) + 1
  let best := st.1
  let best' := if best.2.2 < k then (i + 1 - k, j + 1 - k, k) else best
  (best', (j, k) :: st.2)

/-- One `i` step of `find_longest_match`'s outer loop.  Python skips
(`continue`) the `j < blo` entries and stops (`break`) at the first
`j ≥ bhi`; `b2j`'s lists ascend, so that is filter-then-takeWhile. -/
def flmStep (a b : List Char) (blo bhi : Nat)
    (st : (Nat × Nat × Nat) × List (Nat × Nat)) (i : Nat) :
    (Nat × Nat × Nat) × List (Nat × Nat) :=
  let js := ((b2jA b (a.getD i ' ')).filter (fun j => blo ≤ j)).takeWhile
      (fun j => j < bhi)
  js.foldl (flmProcessJ st.2 i) (st.1, [])

/-- The extension loop
`while besti > alo and bestj > blo and a[besti-1] == b[bestj-1]` (the junk
variant never fires with `isjunk = None`); fuel `besti` bounds the steps. -/
def extendLeft (a b : List Char) (alo blo : Nat) :
    Nat → Nat × Nat × Nat → Nat × Nat × Nat
  | 0, st => st
  | fuel + 1, (besti, bestj, bestsize) =>
    if alo < besti ∧ blo < bestj ∧
        a.getD (besti - 1) ' ' = b.getD (bestj - 1) ' ' then
      extendLeft a b alo blo fuel (besti - 1, bestj - 1, bestsize + 1)
    else (besti, bestj, bestsize)

/-- The extension loop
`while besti+bestsize < ahi and bestj+bestsize < bhi and a[...] == b[...]`. -/
def extendRight (a b : List Char) (ahi bhi : Nat) :
    Nat → Nat × Nat × Nat → Nat × Nat × Nat
  | 0, st => st
  | fuel + 1, (besti, bestj, bestsize) =>
    if besti + bestsize < ahi ∧ bestj + bestsize < bhi ∧
        a.getD (besti + bestsize) ' ' = b.getD (bestj + bestsize) ' ' then
      extendRight a b ahi bhi fuel (besti, bestj, bestsize + 1)
    else (besti, bestj, bestsize)

/-- `SequenceMatcher.find_longest_match(alo, ahi, blo, bhi)`:
dynamic-programming sweep, then extend the winner at both ends. -/
def find_longest_match (a b : List Char) (alo ahi blo bhi : Nat) :
    Nat × Nat × Nat :=
  let core := ((List.range' alo (ahi - alo)).foldl (flmStep a b blo bhi)
      ((alo, blo, 0), [])).1
  let left := extendLeft a b alo blo core.1 core
  extendRight a b ahi bhi ahi left

/-- `get_matching_blocks`'s worklist, keeping only the block sizes (the final
sort-and-merge of adjacent blocks preserves their total size, and the
`(la, lb, 0)` sentinel adds nothing, so `ratio()` needs only the sizes).
Python pops from the list's end; pushing the right subproblem onto the head
after the left one reproduces that order. -/
def matchingBlockSizes (a b : List Char) :
    Nat → List (Nat × Nat × Nat × Nat) → List Nat → List Nat
  | _, [], sizes => sizes
  | 0, _, sizes => sizes
  | fuel + 1, (alo, ahi, blo, bhi) :: queue, sizes =>
    let m := find_longest_match a b alo ahi blo bhi
    let i := m.1
    let j := m.2.1
    let k := m.2.2
    if k = 0 then matchingBlockSizes a b fuel queue sizes
    else
      let q1 := if alo < i ∧ blo < j then (alo, i, blo, j) :: queue else queue
      let q2 := if i + k < ahi ∧ j + k < bhi then (i + k, ahi, j + k, bhi) :: q1
        else q1
      matchingBlockSizes a b fuel q2 (k :: sizes)

/-- `sum(triple[-1] for triple in get_matching_blocks())`.  Every processed
subproblem either yields no block or consumes at least one character of `a`,
so `2 * len(a) + 2` fuel covers the whole recursion tree. -/
def pyMatchesTotal (a b : List Char) : Nat :=
  (matchingBlockSizes a b (2 * a.length + 2) [(0, a.length, 0, b.length)] []).sum

/-- `SequenceMatcher.ratio()` via `_calculate_ratio(matches, la + lb)`. -/
def pyRatio (a b : List Char) : ℚ :=
  if a.length + b.length = 0 then 1
  else (2 * pyMatchesTotal a b : ℚ) / (a.length + b.length)

/-- `diarization_matcher.text_similarity`. -/
def text_similarity (text1 text2 : String) : ℚ :=
  let norm1 := normalize_text text1
  let norm2 := normalize_text text2
  if norm1 = "" ∨ norm2 = "" then 0
  else pyRatio norm1.data norm2.data

/-! ## Sentence Aligner (`align_sentences_with_whisper`) -/

/-- A GPT-formatted sentence, `{"text": ..., "speaker": ...}` (the code reads
both keys with `.get` defaults `""`/`"UNKNOWN"`; they are modelled present). -/
structure GptSentence where
  text : String
  speaker : String
deriving DecidableEq, Repr

/-- A Whisper segment `{"start": ..., "end": ..., "text": ...}`; `end_` stands
for the source's `end` key (a reserved word in Lean).  Times in seconds. -/
structure WhisperSegment where
  start : ℚ
  end_ : ℚ
  text : String
deriving DecidableEq, Repr

instance : Inhabited WhisperSegment := ⟨⟨0, 0, ""⟩⟩

/-- An aligned sentence `{"start", "end", "text", "gpt_speaker"}`. -/
structure AlignedSentence where
  start : ℚ
  end_ : ℚ
  text : String
  gpt_speaker : String
deriving DecidableEq, Repr

/-- The Aligner's inner loop `for i in range(whisper_idx, len(whisper_segments))`:
walk the remaining segments accumulating text; return the collected
`matched_segments` and `some (i+1)` when the loop `break`s at index `i`
(high similarity, or enough normalized length covered), `none` when it runs
off the end.  Segments with similarity in `(0.3, 0.7]` are collected without
breaking; others are passed over. -/
def searchFrom (gpt_text : String) :
    List WhisperSegment → Nat → String → List WhisperSegment →
    List WhisperSegment × Option Nat
  | [], _, _, matched => (matched, none)
  | seg :: rest, i, accumulated_text, matched =>
    let acc' := accumulated_text ++ " " ++ seg.text
    let similarity := text_similarity gpt_text acc'
    if 7/10 < similarity ∨
        (normalize_text gpt_text).length ≤ (normalize_text acc').length then
      (matched ++ [seg], some (i + 1))
    else if 3/10 < similarity then
      searchFrom gpt_text rest (i + 1) acc' (matched ++ [seg])
    else
      searchFrom gpt_text rest (i + 1) acc' matched

/-- Building one aligned entry: the time range of the matched segments, or
the synthesized estimate (previous end, 0.1 s per character) when nothing
matched; the text is always the GPT sentence's own text. -/
def mkAligned (g : GptSentence) (matched : List WhisperSegment)
    (aligned : List AlignedSentence) : AlignedSentence :=
  match matched with
  | [] =>
    let start_time := match aligned.getLast? with
      | some a => a.end_
      | none => 0
    { start := start_time,
      end_ := start_time + (g.text.length : ℚ) * (1/10),
      text := g.text, gpt_speaker := g.speaker }
  | m :: ms =>
    { start := m.start, end_ := ((m :: ms).getLast (by simp)).end_,
      text := g.text, gpt_speaker := g.speaker }

/-- The Aligner's outer loop over `gpt_sentences`, carrying `whisper_idx` and
the `aligned` accumulator.  Blank sentences (`not gpt_text.strip()`) are
skipped; when nothing matched and segments remain, the segment at the cursor
is force-consumed; when segments are exhausted, a timestamp is synthesized
from the previous sentence's end with 0.1 s per character. -/
def alignGo (whisper_segments : List WhisperSegment) :
    List GptSentence → Nat → List AlignedSentence → List AlignedSentence
  | [], _, aligned => aligned
  | g :: gs, whisper_idx, aligned =>
    if pyStrip g.text = "" then alignGo whisper_segments gs whisper_idx aligned
    else
      let res := searchFrom g.text (whisper_segments.drop whisper_idx)
          whisper_idx "" []
      let idx1 := res.2.getD whisper_idx
      let forced := res.1 = [] ∧ idx1 < whisper_segments.length
      let matched := if forced then [whisper_segments.getD idx1 default] else res.1
      let idx2 := if forced then idx1 + 1 else idx1
      alignGo whisper_segments gs idx2 (aligned ++ [mkAligned g matched aligned])

/-- `diarization_matcher.align_sentences_with_whisper`. -/
def align_sentences_with_whisper (gpt_sentences : List GptSentence)
    (whisper_segments : List WhisperSegment) : List AlignedSentence :=
  if gpt_sentences = [] ∨ whisper_segments = [] then []
  else alignGo whisper_segments gpt_sentences 0 []

/-! ## Speaker Assigner (`assign_speakers_to_sentences`) -/

/-- A diarization segment `{"start", "end", "speaker_id"}` (seconds; the code
reads the keys with `.get` defaults, modelled as present fields). -/
structure DiarSegment where
  start : ℚ
  end_ : ℚ
  speaker_id : String
deriving DecidableEq, Repr

/-- A speaker-labeled sentence as built by `assign_speakers_to_sentences`. -/
structure LabeledSentence where
  start : ℚ
  end_ : ℚ
  text : String
  speaker_id : String
  gpt_speaker : String
  confidence : ℚ
deriving DecidableEq, Repr

/-- `overlaps[diar_speaker] = overlaps.get(diar_speaker, 0.0) + overlap_dur`
on an insertion-ordered association list (a Python dict keeps first-insertion
order, which `max` below depends on). -/
def addOverlap : List (String × ℚ) → String → ℚ → List (String × ℚ)
  | [], sp, d => [(sp, d)]
  | (s, v) :: rest, sp, d =>
    if s = sp then (s, v + d) :: rest else (s, v) :: addOverlap rest sp d

/-- The `for diar in diar_segments` loop building the `overlaps` dict. -/
def collectOverlapsAux (sent_start sent_end : ℚ) :
    List (String × ℚ) → List DiarSegment → List (String × ℚ)
  | overlaps, [] => overlaps
  | overlaps, diar :: rest =>
    collectOverlapsAux sent_start sent_end
      (if diar.start < sent_end ∧ sent_start < diar.end_ then
        addOverlap overlaps diar.speaker_id
          (max 0 (min sent_end diar.end_ - max sent_start diar.start))
      else overlaps) rest

/-- The overlap dictionary for one sentence: every diarization segment whose
interval intersects the sentence (`diar_start < sent_end and diar_end >
sent_start`) contributes `max(0, overlap_end - overlap_start)` to its
speaker's total. -/
def collectOverlaps (sent_start sent_end : ℚ) (diar_segments : List DiarSegment) :
    List (String × ℚ) :=
  collectOverlapsAux sent_start sent_end [] diar_segments

/-- `max(overlaps, key=overlaps.get)`: the first key attaining the maximum
value, in dict order; `none` on an empty dict. -/
def maxBySnd : List (String × ℚ) → Option (String × ℚ)
  | [] => none
  | p :: rest => some (rest.foldl (fun best q => if best.2 < q.2 then q else best) p)

/-- The body of `assign_speakers_to_sentences`' loop for one sentence, given
the already-labeled prefix (used by the previous-speaker fallback). -/
def assignOne (labeled : List LabeledSentence) (sent : AlignedSentence)
    (diar_segments : List DiarSegment) : LabeledSentence :=
  let overlaps := collectOverlaps sent.start sent.end_ diar_segments
  match maxBySnd overlaps with
  | some best0 =>
    let total_overlap := (overlaps.map (fun p => p.2)).sum
    let confidence0 := if 0 < total_overlap then best0.2 / total_overlap else 0
    let unreliable := total_overlap < 1/10
    { start := sent.start, end_ := sent.end_, text := sent.text,
      speaker_id := if unreliable then
          ((labeled.getLast?.map (fun l => l.speaker_id)).getD "SPEAKER_00")
        else best0.1,
      gpt_speaker := sent.gpt_speaker,
      confidence := if unreliable then 0 else confidence0 }
  | none =>
    { start := sent.start, end_ := sent.end_, text := sent.text,
      speaker_id := (labeled.getLast?.map (fun l => l.speaker_id)).getD "SPEAKER_00",
      gpt_speaker := sent.gpt_speaker, confidence := 0 }

/-- The loop of `assign_speakers_to_sentences`, appending one labeled
sentence per input sentence. -/
def assignGo (diar_segments : List DiarSegment) :
    List AlignedSentence → List LabeledSentence → List LabeledSentence
  | [], labeled => labeled
  | sent :: rest, labeled =>
    assignGo diar_segments rest (labeled ++ [assignOne labeled sent diar_segments])

/-- `diarization_matcher.assign_speakers_to_sentences`. -/
def assign_speakers_to_sentences (sentences : List AlignedSentence)
    (diar_segments : List DiarSegment) : List LabeledSentence :=
  assignGo diar_segments sentences []

/-! ## Segment Merger (`ws_upload.py`) -/

/-- A merged speaker segment (the dicts `{"speaker_id", "start_ms", "end_ms",
"text"}` used throughout `ws_upload.py`; millisecond ints). -/
structure SpeakerSegment where
  speaker_id : String
  start_ms : Int
  end_ms : Int
  text : String
deriving DecidableEq, Repr

instance : Inhabited SpeakerSegment := ⟨⟨"", 0, 0, ""⟩⟩

/-- An ASR `TranscriptSegment` as `merge_asr_and_diarization` reads it: its
`start_ms`/`end_ms` properties (`int(start_sec * 1000)`) and its text. -/
structure AsrSegment where
  start_ms : Int
  end_ms : Int
  text : String
deriving DecidableEq, Repr

instance : Inhabited AsrSegment := ⟨⟨0, 0, ""⟩⟩

/-- A diarization turn in milliseconds, `{"speaker_id", "start_ms", "end_ms"}`. -/
structure DiarTurnMs where
  speaker_id : String
  start_ms : Int
  end_ms : Int
deriving DecidableEq, Repr

/-- `sorted(·, key=lambda x: x["start_ms"])`: Python's sort is stable, and a
stable sort by a total preorder is extensionally unique, so insertion sort
models it. -/
def leStart (a b : SpeakerSegment) : Prop := a.start_ms ≤ b.start_ms

instance : DecidableRel leStart := fun a b =>
  inferInstanceAs (Decidable (a.start_ms ≤ b.start_ms))

/-- `merge_asr_and_diarization`'s per-segment test: positive duration,
positive overlap, and overlap ratio at least `OVERLAP_THRESHOLD = 0.45`. -/
def asrMatch (turn : DiarTurnMs) (seg : AsrSegment) : Prop :=
  let overlap := min turn.end_ms seg.end_ms - max turn.start_ms seg.start_ms
  let asr_duration := seg.end_ms - seg.start_ms
  0 < asr_duration ∧ 0 < overlap ∧
    (45/100 : ℚ) ≤ (overlap : ℚ) / (asr_duration : ℚ)

instance (turn : DiarTurnMs) (seg : AsrSegment) : Decidable (asrMatch turn seg) := by
  unfold asrMatch; infer_instance

/-- The ASR indices one diarization turn collects: unused indices whose
segment passes `asrMatch`, in original segment order. -/
def turnMatchedIdx (asr_segments : List AsrSegment) (used : List Nat)
    (turn : DiarTurnMs) : List Nat :=
  (List.range asr_segments.length).filter
    (fun idx => idx ∉ used ∧ asrMatch turn (asr_segments.getD idx default))

/-- The turn loop of `merge_asr_and_diarization`, instrumented to keep each
turn's matched index list; `used` carries `used_asr_indices` (growing it
after a turn equals Python's in-loop `add`, since one turn never retests an
index it just added). -/
def mergeTurnsGo (asr_segments : List AsrSegment) :
    List DiarTurnMs → List Nat → List (DiarTurnMs × List Nat)
  | [], _ => []
  | turn :: rest, used =>
    let idxs := turnMatchedIdx asr_segments used turn
    (turn, idxs) :: mergeTurnsGo asr_segments rest (used ++ idxs)

/-- All turns' matched index lists. -/
def mergeTurns (asr_segments : List AsrSegment) (diar_segments : List DiarTurnMs) :
    List (DiarTurnMs × List Nat) :=
  mergeTurnsGo asr_segments diar_segments []

/-- `ws_upload.merge_asr_and_diarization`: turns with at least one matched
segment become one merged segment (`" ".join(stripped texts).strip()`),
then the result is sorted by `start_ms`.  Unmatched ASR segments are only
logged and appear nowhere. -/
def merge_asr_and_diarization (asr_segments : List AsrSegment)
    (diar_segments : List DiarTurnMs) : List SpeakerSegment :=
  if asr_segments = [] ∨ diar_segments = [] then []
  else
    let merged := (mergeTurns asr_segments diar_segments).filterMap
      (fun p =>
        if p.2 = [] then none
        else some
          { speaker_id := p.1.speaker_id, start_ms := p.1.start_ms,
            end_ms := p.1.end_ms,
            text := pyStrip (joinSp (p.2.map
              (fun idx => pyStrip (asr_segments.getD idx default).text))) })
    List.insertionSort leStart merged

/-- The fold of `merge_consecutive_same_speaker` over the sorted segments:
merge `seg` into `current` when the speaker matches and
`seg["start_ms"] - current["end_ms"] <= MAX_GAP_MS` (2000 ms), concatenating
stripped texts with one space (empty texts handled as in the source). -/
def mergeGo : SpeakerSegment → List SpeakerSegment → List SpeakerSegment
  | current, [] => [current]
  | current, seg :: rest =>
    if seg.speaker_id = current.speaker_id ∧
        seg.start_ms - current.end_ms ≤ 2000 then
      let text' :=
        if current.text ≠ "" ∧ seg.text ≠ "" then
          pyStrip current.text ++ " " ++ pyStrip seg.text
        else if seg.text ≠ "" then seg.text
        else current.text
      mergeGo { current with end_ms := seg.end_ms, text := text' } rest
    else
      current :: mergeGo seg rest

/-- `ws_upload.merge_consecutive_same_speaker`: sort by start time, then fold
adjacent same-speaker segments whose gap is at most 2000 ms. -/
def merge_consecutive_same_speaker (segments : List SpeakerSegment) :
    List SpeakerSegment :=
  match List.insertionSort leStart segments with
  | [] => []
  | first :: rest => mergeGo first rest

/-- Python `int(x)` on a rational: truncation toward zero. -/
def pyInt (q : ℚ) : Int :=
  if q < 0 then -(Int.floor (-q)) else Int.floor q

/-- The turn loop of `fallback_merge_with_full_text`: per turn take
`max(1, int(len(words) * (seg_duration / total_duration)))` words from the
cursor, emit a segment when the slice is non-empty; also returns the final
word cursor. -/
def fbGo (words : List String) (total_duration : Int) :
    List DiarTurnMs → Nat → List SpeakerSegment × Nat
  | [], word_idx => ([], word_idx)
  | d :: rest, word_idx =>
    let seg_duration := d.end_ms - d.start_ms
    let seg_word_count := (max 1 (pyInt ((words.length : ℚ) *
        ((seg_duration : ℚ) / (total_duration : ℚ))))).toNat
    let seg_words := (words.drop word_idx).take seg_word_count
    let out := fbGo words total_duration rest (word_idx + seg_word_count)
    if seg_words = [] then out
    else
      ({ speaker_id := d.speaker_id, start_ms := d.start_ms,
         end_ms := d.end_ms, text := joinSp seg_words } :: out.1, out.2)

/-- `merged[-1]["text"] += extra`. -/
def updateLastText : List SpeakerSegment → String → List SpeakerSegment
  | [], _ => []
  | [x], extra => [{ x with text := x.text ++ extra }]
  | x :: y :: rest, extra => x :: updateLastText (y :: rest) extra

/-- `ws_upload.fallback_merge_with_full_text`: apportion the whitespace
tokens of `full_text` across turns by duration share; leftover words are
appended to the last emitted segment. -/
def fallback_merge_with_full_text (full_text : String)
    (diar_segments : List DiarTurnMs) : List SpeakerSegment :=
  if pyStrip full_text = "" ∨ diar_segments = [] then []
  else
    let words := pySplit full_text
    if words = [] then []
    else
      let total_duration := (diar_segments.map (fun d => d.end_ms - d.start_ms)).sum
      if total_duration = 0 then []
      else
        let r := fbGo words total_duration diar_segments 0
        if r.2 < words.length ∧ r.1 ≠ [] then
          updateLastText r.1 (" " ++ joinSp (words.drop r.2))
        else r.1

/-! ## Persistence pass (`save_formatted_sentences`, row creation)

The pure core of `ws_upload.save_formatted_sentences`: the loop
`for i, sent in enumerate(sentences, start=start_seq + 1)` that builds the
`Transcript.create(...)` rows.  `start_seq` is the session's recorded
starting offset, `conv_start_time`/`time_offset` the absolute-time inputs
computed before the loop. -/

/-- One input sentence as the save loop reads it: `text` via
`sent.get("text", "")`, and the optional keys the loop probes with `in` /
`.get`. -/
structure SaveSentence where
  text : String
  speaker : Option String
  speaker_id : Option String
  start : Option ℚ
  end_ : Option ℚ
deriving DecidableEq, Repr

/-- One created `Transcript` row (the persisted FinalTranscriptSegment). -/
structure TranscriptRow where
  seq : Nat
  is_final : Bool
  start_ms : Int
  end_ms : Int
  text : String
  speaker_id : String
deriving DecidableEq, Repr

/-- The speaker resolution of the save loop: a `speaker_id` key wins, else a
`speaker` label becomes `SPEAKER_<label>`, else `SPEAKER_00`. -/
def rowSpeaker (sent : SaveSentence) : String :=
  match sent.speaker_id with
  | some sid => sid
  | none =>
    match sent.speaker with
    | some label => "SPEAKER_" ++ label
    | none => "SPEAKER_00"

/-- The row-creation loop; `i` is the enumerate counter.  A sentence whose
stripped text is empty is skipped (`continue`) but still advances `i`. -/
def saveGo (start_seq : Nat) (conv_start_time time_offset : Int)
    (has_timestamps : Bool) : List SaveSentence → Nat → List TranscriptRow
  | [], _ => []
  | sent :: rest, i =>
    let tail := saveGo start_seq conv_start_time time_offset has_timestamps
        rest (i + 1)
    let text := pyStrip sent.text
    if text = "" then tail
    else
      let rel : Int × Int :=
        if has_timestamps then
          (pyInt ((sent.start.getD 0) * 1000), pyInt ((sent.end_.getD 0) * 1000))
        else
          (((i : Int) - (start_seq : Int) - 1) * 3000,
           ((i : Int) - (start_seq : Int) - 1) * 3000 + 3000)
      { seq := i, is_final := true,
        start_ms := conv_start_time + time_offset + rel.1,
        end_ms := conv_start_time + time_offset + rel.2,
        text := text, speaker_id := rowSpeaker sent } :: tail

/-- The rows one pass creates (`save_formatted_sentences` then inserts them
after deleting every row with `seq > start_seq`).  `has_timestamps` is
`sentences and "start" in sentences[0]`. -/
def save_formatted_rows (start_seq : Nat) (conv_start_time time_offset : Int)
    (sentences : List SaveSentence) : List TranscriptRow :=
  let has_timestamps := match sentences.head? with
    | some s => s.start.isSome
    | none => false
  saveGo start_seq conv_start_time time_offset has_timestamps sentences
    (start_seq + 1)

/-! ## Quality Gate (`hallucination_detector.py`) -/

/-- A detector verdict `{"is_hallucination", "reason", "confidence"}` (the
optional `details` diagnostic dict is omitted). -/
structure DetectResult where
  is_hallucination : Bool
  reason : String
  confidence : ℚ
deriving DecidableEq, Repr

/-- A Whisper segment as `_check_whisper_confidence` reads it:
`avg_logprob` (default `-0.5`), `start`, `end` (defaults `0`). -/
structure ConfSegment where
  avg_logprob : ℚ
  start : ℚ
  end_ : ℚ
deriving DecidableEq, Repr

/-- `_check_whisper_confidence(text, segments)`.  `segments` nonempty makes
`confidences` nonempty, so the source's `if not confidences` branch is dead
and omitted. -/
def _check_whisper_confidence (text : String)
    (segments : Option (List ConfSegment)) : DetectResult :=
  match segments with
  | none => ⟨false, "no_segments", 7/10⟩
  | some [] => ⟨false, "no_segments", 7/10⟩
  | some segs =>
    let confidences := segs.map (fun s => (max 0 (min 1 (s.avg_logprob + 1)) : ℚ))
    let durations := (segs.map (fun s => s.end_ - s.start)).filter (fun d => 0 < d)
    let avg_confidence := confidences.sum / (confidences.length : ℚ)
    let low_confidence_count := (confidences.filter (fun c => c < 1/2)).length
    let low_confidence_ratio := (low_confidence_count : ℚ) / (confidences.length : ℚ)
    let speed_abnormal : Bool :=
      if durations = [] then false
      else
        let words := pySplit text
        let words_per_second := (words.length : ℚ) / max durations.sum (1/10)
        words_per_second < 1/2 ∨ 6 < words_per_second
    if avg_confidence < 3/10 then
      ⟨true, "low_avg_confidence", avg_confidence⟩
    else if 7/10 < low_confidence_ratio then
      ⟨true, "high_low_confidence_ratio", avg_confidence⟩
    else if speed_abnormal then
      ⟨true, "abnormal_speech_rate", avg_confidence⟩
    else
      ⟨false, "valid_confidence", avg_confidence⟩

/-- Longest run of consecutive equal elements (the `max_word_repeat` loop of
`_check_repetition`; the maximum is only refreshed on an equal pair, exactly
as the source does). -/
def maxConsecRun (words : List String) : Nat :=
  ((words.zip (words.drop 1)).foldl
    (fun st p =>
      if p.1 = p.2 then (max st.1 (st.2 + 1), st.2 + 1) else (st.1, 1))
    (0, 1)).1

/-- Python `str.count(sub)` for non-empty `sub`: non-overlapping occurrences,
scanning left to right; the fuel (initially the text length) only pads the
recursion and never binds first.  (For empty `sub` Python returns
`len + 1`; the detector only counts phrases joined from non-empty words.) -/
def pyCountAux (sub : List Char) : Nat → List Char → Nat
  | _, [] => 0
  | 0, _ => 0
  | fuel + 1, c :: rest =>
    if sub.isPrefixOf (c :: rest) then
      1 + pyCountAux sub fuel ((c :: rest).drop sub.length)
    else pyCountAux sub fuel rest

/-- `text.count(phrase)` on strings. -/
def pyCount (text sub : String) : Nat :=
  pyCountAux sub.data text.data.length text.data

/-- The phrase-repetition scan of `_check_repetition`: for each phrase length
2–5 (in order) and each window start, flag when the phrase recurs later in
the word list (`phrase in rest_text`) and occurs three or more times in the
lowered text. -/
def phraseRepeat (lowered : String) (words : List String) : Option String :=
  ([2, 3, 4, 5].filterMap (fun phrase_len =>
    if words.length < phrase_len * 2 then none
    else
      ((List.range (words.length - phrase_len * 2 + 1)).filterMap (fun i =>
        let phrase := joinSp ((words.drop i).take phrase_len)
        let rest_text := joinSp (words.drop (i + phrase_len))
        if phrase.data <:+: rest_text.data ∧ 3 ≤ pyCount lowered phrase
        then some phrase else none)).head?)).head?

/-- Split on runs of `[.!?]` (the `re.split(r'[.!?]+', text)` of the
sentence-repetition scan), keeping the empty parts Python keeps; the flag
records being inside a separator run. -/
def splitSentAux : Bool → List Char → List Char → List (List Char)
  | _, [], acc => [acc.reverse]
  | inSep, c :: cs, acc =>
    if c = '.' ∨ c = '!' ∨ c = '?' then
      if inSep then splitSentAux true cs acc
      else acc.reverse :: splitSentAux true cs []
    else splitSentAux false cs (c :: acc)

/-- The duplicate-sentence scan: walk the normalized sentences with a `seen`
set, flagging a repeat longer than 10 characters. -/
def dupSentence : List String → List String → Option String
  | [], _ => none
  | s :: rest, seen =>
    if s ∈ seen ∧ 10 < s.length then some s
    else dupSentence rest (s :: seen)

/-- `_check_repetition(text)`. -/
def _check_repetition (text : String) : DetectResult :=
  let lowered := pyLower text
  let words := pySplit lowered
  if words.length < 2 then ⟨false, "too_short", 7/10⟩
  else if 4 ≤ maxConsecRun words then ⟨true, "repeated_word", 3/10⟩
  else
    match phraseRepeat lowered words with
    | some _ => ⟨true, "repeated_phrase", 4/10⟩
    | none =>
      let sentences := ((splitSentAux false text.data []).map
          (fun l => pyLower (pyStrip (String.mk l)))).filter (fun s => s ≠ "")
      if 2 ≤ sentences.length then
        match dupSentence sentences [] with
        | some _ => ⟨true, "repeated_sentence", 4/10⟩
        | none => ⟨false, "no_repetition", 8/10⟩
      else ⟨false, "no_repetition", 8/10⟩

/-- Maximal `\w` runs of a string (`re.findall(r'\w+', t)`). -/
def wordRunsAux : List Char → List Char → List (List Char)
  | [], acc => if acc = [] then [] else [acc.reverse]
  | c :: cs, acc =>
    if pyIsWord c then wordRunsAux cs (c :: acc)
    else if acc = [] then wordRunsAux cs []
    else acc.reverse :: wordRunsAux cs []

/-- `re.findall(r'\w+', s)`. -/
def wordRuns (s : String) : List String :=
  (wordRunsAux s.data []).map String.mk

/-- The English stopword list of `_check_semantic_coherence`. -/
def stopwords : List String :=
  ["the", "a", "an", "and", "or", "but", "in", "on", "at", "to", "for",
   "of", "with", "is", "are", "was", "were", "be", "been", "being",
   "i", "you", "he", "she", "it", "we", "they", "me", "him", "her",
   "us", "them", "my", "your", "his", "its", "our", "their", "this",
   "that", "these", "those", "have", "has", "had", "do", "does", "did"]

/-- `extract_keywords(t)`: non-stopword `\w+` runs of the lowered text that
are longer than two characters, as a set. -/
def extract_keywords (t : String) : Finset String :=
  ((wordRuns (pyLower t)).filter
    (fun w => w ∉ stopwords ∧ 2 < w.length)).toFinset

/-- `max` of a rational list (only used on non-empty lists, as the source
guards with `if overlaps:`). -/
def maxQ : List ℚ → ℚ
  | [] => 0
  | q :: rest => rest.foldl max q

/-- `_check_semantic_coherence(text)`, with the mutable `history_texts`
buffer made explicit: returns the verdict and the buffer after the call
(updated only on the no-history branch and on a pass, exactly as the
source appends). -/
def _check_semantic_coherence (history_texts : List String) (text : String) :
    DetectResult × List String :=
  if history_texts = [] then
    (⟨false, "no_history", 7/10⟩, history_texts ++ [text])
  else
    let current_keywords := extract_keywords text
    let recent_texts := history_texts.drop (history_texts.length - 3)
    let overlaps := recent_texts.filterMap (fun hist_text =>
      let hist_keywords := extract_keywords hist_text
      if hist_keywords = ∅ then none
      else some (((current_keywords ∩ hist_keywords).card : ℚ) /
        (max current_keywords.card 1 : ℕ)))
    if overlaps ≠ [] ∧ 2 ≤ history_texts.length ∧ maxQ overlaps < 1/20 then
      (⟨true, "topic_shift", 1/2⟩, history_texts)
    else
      let normalized_text := pyStrip (pyLower text)
      if recent_texts.any (fun hist_text =>
          normalized_text = pyStrip (pyLower hist_text) ∧
          20 < normalized_text.length) then
        (⟨true, "duplicate_across_transcripts", 4/10⟩, history_texts)
      else
        let h := history_texts ++ [text]
        (⟨false, "coherent", 8/10⟩, if 5 < h.length then h.drop 1 else h)

/-- Longest run of one repeated non-newline character:
`re.search(r'(.)\1{6,}', text)` matches exactly when this reaches 7 (the
regex `.` does not match a newline, so newline runs never count). -/
def longestCharRun (l : List Char) : Nat :=
  (l.foldl (fun st c =>
    match st.2.2 with
    | some p =>
      if c = p ∧ c ≠ '\n' then (max st.1 (st.2.1 + 1), st.2.1 + 1, some c)
      else (st.1, 1, some c)
    | none => (max st.1 1, 1, some c)) (0, 0, none)).1

/-- `_check_suspicious_patterns(text)`. -/
def _check_suspicious_patterns (text : String) : DetectResult :=
  if text.data ≠ [] ∧ text.data.all (fun c =>
      pyIsSpace c ∨ c ∈ ['.', ',', '!', '?', ';', ':']) then
    ⟨true, "only_punctuation", 0⟩
  else if 7 ≤ longestCharRun text.data then
    ⟨true, "repeated_characters", 2/10⟩
  else if (pyStrip text).length < 3 then
    ⟨true, "text_too_short", 3/10⟩
  else
    let special_char_count := (text.data.filter
      (fun c => ¬(pyIsWord c ∨ pyIsSpace c))).length
    let char_count := (text.data.filter (fun c => c ≠ ' ')).length
    if 0 < char_count ∧
        (3/10 : ℚ) < (special_char_count : ℚ) / (char_count : ℚ) then
      ⟨true, "too_many_special_chars", 4/10⟩
    else
      ⟨false, "normal_pattern", 8/10⟩

/-- `HallucinationDetector.detect_from_whisper`, with the instance's
`history_texts` state explicit: returns the verdict and the buffer after
the call.  The four checks run in the source's order — confidence,
repetition, semantic coherence (the stateful one), suspicious patterns —
first flag short-circuits. -/
def detect_from_whisper (history_texts : List String) (text : String)
    (segments : Option (List ConfSegment)) : DetectResult × List String :=
  if pyStrip text = "" then (⟨true, "empty_text", 0⟩, history_texts)
  else
    let confidence_check := _check_whisper_confidence text segments
    if confidence_check.is_hallucination then (confidence_check, history_texts)
    else
      let repetition_check := _check_repetition text
      if repetition_check.is_hallucination then (repetition_check, history_texts)
      else
        let coherence_check := _check_semantic_coherence history_texts text
        if coherence_check.1.is_hallucination then coherence_check
        else
          let pattern_check := _check_suspicious_patterns text
          if pattern_check.is_hallucination then (pattern_check, coherence_check.2)
          else
            (⟨false, "valid", confidence_check.confidence⟩, coherence_check.2)

/-! ## Derived definitions used by the claim statements -/

instance : Inhabited AlignedSentence := ⟨⟨0, 0, "", ""⟩⟩

instance : Inhabited LabeledSentence := ⟨⟨0, 0, "", "", "", 0⟩⟩

instance : Inhabited DiarSegment := ⟨⟨0, 0, ""⟩⟩

instance : Inhabited SaveSentence := ⟨⟨"", none, none, none, none⟩⟩

instance : Inhabited TranscriptRow := ⟨⟨0, false, 0, 0, "", ""⟩⟩

/-- The intersection test of `assign_speakers_to_sentences`
(`diar_start < sent_end and diar_end > sent_start`). -/
def intersects (sent : AlignedSentence) (diar : DiarSegment) : Prop :=
  diar.start < sent.end_ ∧ sent.start < diar.end_

instance (s : AlignedSentence) (d : DiarSegment) : Decidable (intersects s d) := by
  unfold intersects; infer_instance

/-- One diarization segment's overlap contribution,
`max(0, overlap_end - overlap_start)`. -/
def overlapContrib (sent : AlignedSentence) (diar : DiarSegment) : ℚ :=
  max 0 (min sent.end_ diar.end_ - max sent.start diar.start)

/-- The sentence's total accumulated overlap: the sum of the values of the
`overlaps` dictionary the code builds. -/
def totalOverlap (sent : AlignedSentence) (diar_segments : List DiarSegment) : ℚ :=
  ((collectOverlaps sent.start sent.end_ diar_segments).map (fun p => p.2)).sum

/-- `sent` lies fully inside `diar`. -/
def containedIn (sent : AlignedSentence) (diar : DiarSegment) : Prop :=
  diar.start ≤ sent.start ∧ sent.end_ ≤ diar.end_

instance (s : AlignedSentence) (d : DiarSegment) : Decidable (containedIn s d) := by
  unfold containedIn; infer_instance

instance : IsTotal SpeakerSegment leStart :=
  ⟨fun a b => le_total a.start_ms b.start_ms⟩

instance : IsTrans SpeakerSegment leStart :=
  ⟨fun _ _ _ h h' => le_trans h h'⟩

/-- A word as `str.split()` produces it: non-empty, whitespace-free. -/
def cleanWord (w : String) : Prop :=
  w ≠ "" ∧ ∀ c ∈ w.data, ¬ pyIsSpace c

/-- Field projection used to compare the assigner's output with its input. -/
def sentProj (s : AlignedSentence) : ℚ × ℚ × String × String :=
  (s.start, s.end_, s.text, s.gpt_speaker)

/-- Same projection out of a labeled sentence. -/
def labProj (l : LabeledSentence) : ℚ × ℚ × String × String :=
  (l.start, l.end_, l.text, l.gpt_speaker)

/-- Invariant between adjacent outputs of `merge_consecutive_same_speaker`:
ordered by start, and not mergeable (different speaker, or gap over
2000 ms). -/
def mergeAdjOk (a b : SpeakerSegment) : Prop :=
  leStart a b ∧ ¬ (b.speaker_id = a.speaker_id ∧ b.start_ms - a.end_ms ≤ 2000)

/-- Ordering of Whisper segments by start time. -/
def wLeStart (a b : WhisperSegment) : Prop := a.start ≤ b.start

instance : IsTrans WhisperSegment wLeStart :=
  ⟨fun _ _ _ h h' => le_trans h h'⟩

instance : DecidableRel wLeStart := fun a b =>
  inferInstanceAs (Decidable (a.start ≤ b.start))

/-- Direct recursion for "sum of overlap contributions of the intersecting
turns", used to reason about the `overlaps` dictionary. -/
def interContribSum (s e : ℚ) : List DiarSegment → ℚ
  | [] => 0
  | u :: rest =>
    (if u.start < e ∧ s < u.end_ then max 0 (min e u.end_ - max s u.start) else 0)
      + interContribSum s e rest

/-! ## Speaker Assigner lemmas -/

/-- `assignOne` copies the sentence's fields verbatim. -/
theorem assignOne_start (labeled : List LabeledSentence) (sent : AlignedSentence)
    (diar : List DiarSegment) : (assignOne labeled sent diar).start = sent.start := by
  unfold assignOne
  cases h : maxBySnd (collectOverlaps sent.start sent.end_ diar) <;> simp [h]

theorem assignOne_end (labeled : List LabeledSentence) (sent : AlignedSentence)
    (diar : List DiarSegment) : (assignOne labeled sent diar).end_ = sent.end_ := by
  unfold assignOne
  cases h : maxBySnd (collectOverlaps sent.start sent.end_ diar) <;> simp [h]

theorem assignOne_text (labeled : List LabeledSentence) (sent : AlignedSentence)
    (diar : List DiarSegment) : (assignOne labeled sent diar).text = sent.text := by
  unfold assignOne
  cases h : maxBySnd (collectOverlaps sent.start sent.end_ diar) <;> simp [h]

theorem assignOne_gpt (labeled : List LabeledSentence) (sent : AlignedSentence)
    (diar : List DiarSegment) :
    (assignOne labeled sent diar).gpt_speaker = sent.gpt_speaker := by
  unfold assignOne
  cases h : maxBySnd (collectOverlaps sent.start sent.end_ diar) <;> simp [h]

theorem assignGo_map_proj (diar : List DiarSegment) :
    ∀ (rest : List AlignedSentence) (labeled : List LabeledSentence),
    (assignGo diar rest labeled).map labProj
      = labeled.map labProj ++ rest.map sentProj
  | [], labeled => by simp [assignGo]
  | s :: rest, labeled => by
    rw [assignGo, assignGo_map_proj diar rest]
    simp [labProj, sentProj, assignOne_start, assignOne_end, assignOne_text,
      assignOne_gpt]

theorem assignGo_length (diar : List DiarSegment) (rest : List AlignedSentence)
    (labeled : List LabeledSentence) :
    (assignGo diar rest labeled).length = labeled.length + rest.length := by
  have := congrArg List.length (assignGo_map_proj diar rest labeled)
  simpa using this

theorem assignGo_prefix (diar : List DiarSegment) :
    ∀ (rest : List AlignedSentence) (labeled : List LabeledSentence),
    ∃ t, assignGo diar rest labeled = labeled ++ t
  | [], labeled => ⟨[], by simp [assignGo]⟩
  | s :: rest, labeled => by
    obtain ⟨t, ht⟩ := assignGo_prefix diar rest (labeled ++ [assignOne labeled s diar])
    exact ⟨assignOne labeled s diar :: t, by simp [assignGo, ht]⟩

/-- Positional description of the assigner: the `k`-th output is `assignOne`
applied to the first `k` outputs (the fallback context) and the `k`-th
input. -/
theorem assignGo_getD (diar : List DiarSegment) :
    ∀ (rest : List AlignedSentence) (labeled : List LabeledSentence) (k : Nat),
    k < rest.length →
    (assignGo diar rest labeled).getD (labeled.length + k) default
      = assignOne ((assignGo diar rest labeled).take (labeled.length + k))
          (rest.getD k default) diar
  | [], _, k, hk => by simp at hk
  | s :: rest, labeled, 0, _ => by
    obtain ⟨t, ht⟩ := assignGo_prefix diar rest (labeled ++ [assignOne labeled s diar])
    rw [assignGo, ht]
    rw [Nat.add_zero, List.append_assoc]
    rw [List.take_append_of_le_length (Nat.le_refl _), List.take_length]
    rw [List.getD_append_right _ _ _ _ (Nat.le_refl _)]
    simp [List.getD]
  | s :: rest, labeled, k + 1, hk => by
    have := assignGo_getD diar rest (labeled ++ [assignOne labeled s diar]) k
      (by simpa using hk)
    rw [assignGo]
    simpa [Nat.add_assoc, Nat.add_comm 1 k] using this

theorem addOverlap_snd_sum (sp : String) (d : ℚ) :
    ∀ ov : List (String × ℚ),
    ((addOverlap ov sp d).map (fun p => p.2)).sum = (ov.map (fun p => p.2)).sum + d
  | [] => by simp [addOverlap]
  | (s, v) :: rest => by
    by_cases h : s = sp
    · simp [addOverlap, h]
      ring
    · simp [addOverlap, h, addOverlap_snd_sum sp d rest]
      ring

theorem collectOverlapsAux_sum (s e : ℚ) :
    ∀ (diar : List DiarSegment) (acc : List (String × ℚ)),
    ((collectOverlapsAux s e acc diar).map (fun p => p.2)).sum
      = (acc.map (fun p => p.2)).sum + interContribSum s e diar
  | [], acc => by simp [collectOverlapsAux, interContribSum]
  | u :: rest, acc => by
    rw [collectOverlapsAux, interContribSum]
    by_cases h : u.start < e ∧ s < u.end_
    · rw [if_pos h, if_pos h, collectOverlapsAux_sum s e rest, addOverlap_snd_sum]
      ring
    · rw [if_neg h, if_neg h, collectOverlapsAux_sum s e rest]
      ring

/-- The code's accumulated total equals the sum of the contributions of the
intersecting turns. -/
theorem totalOverlap_eq (sent : AlignedSentence) (diar : List DiarSegment) :
    totalOverlap sent diar = interContribSum sent.start sent.end_ diar := by
  unfold totalOverlap collectOverlaps
  rw [collectOverlapsAux_sum]
  simp

theorem collectOverlapsAux_same (s e : ℚ) (sp : String) :
    ∀ (diar : List DiarSegment) (v : ℚ),
    (∀ u ∈ diar, u.start < e → s < u.end_ → u.speaker_id = sp) →
    collectOverlapsAux s e [(sp, v)] diar = [(sp, v + interContribSum s e diar)]
  | [], v, _ => by simp [collectOverlapsAux, interContribSum]
  | u :: rest, v, hall => by
    rw [collectOverlapsAux, interContribSum]
    by_cases h : u.start < e ∧ s < u.end_
    · have hsp : u.speaker_id = sp := hall u (by simp) h.1 h.2
      rw [if_pos h, if_pos h]
      have hadd : addOverlap [(sp, v)] u.speaker_id
          (max 0 (min e u.end_ - max s u.start))
          = [(sp, v + max 0 (min e u.end_ - max s u.start))] := by
        simp [addOverlap, hsp]
      rw [hadd, collectOverlapsAux_same s e sp rest _
        (fun w hw => hall w (by simp [hw]))]
      rw [add_assoc]
    · rw [if_neg h, if_neg h, collectOverlapsAux_same s e sp rest v
        (fun w hw => hall w (by simp [hw]))]
      rw [zero_add]

/-- When every intersecting turn belongs to one speaker, the overlap dict is
empty or the singleton of that speaker with the accumulated total. -/
theorem collectOverlaps_same (sent : AlignedSentence) (sp : String) :
    ∀ diar : List DiarSegment,
    (∀ u ∈ diar, intersects sent u → u.speaker_id = sp) →
    collectOverlaps sent.start sent.end_ diar = [] ∨
      collectOverlaps sent.start sent.end_ diar = [(sp, totalOverlap sent diar)]
  | [], _ => Or.inl rfl
  | u :: rest, hall => by
    rw [totalOverlap_eq]
    unfold collectOverlaps
    rw [collectOverlapsAux, interContribSum]
    by_cases h : u.start < sent.end_ ∧ sent.start < u.end_
    · right
      have hsp : u.speaker_id = sp := hall u (by simp) ⟨h.1, h.2⟩
      rw [if_pos h, if_pos h]
      have hadd : addOverlap [] u.speaker_id
          (max 0 (min sent.end_ u.end_ - max sent.start u.start))
          = [(sp, max 0 (min sent.end_ u.end_ - max sent.start u.start))] := by
        simp [addOverlap, hsp]
      rw [hadd, collectOverlapsAux_same sent.start sent.end_ sp rest _
        (fun w hw h1 h2 => hall w (by simp [hw]) ⟨h1, h2⟩)]
    · rw [if_neg h, if_neg h, zero_add]
      have := collectOverlaps_same sent sp rest
        (fun w hw hi => hall w (by simp [hw]) hi)
      rw [totalOverlap_eq] at this
      unfold collectOverlaps at this
      exact this

theorem getLast?_take_eq (l : List LabeledSentence) (k : Nat) (h0 : k ≠ 0)
    (hk : k ≤ l.length) : (l.take k).getLast? = l[k-1]? := by
  rw [List.getLast?_eq_getElem?]
  rw [List.length_take, Nat.min_eq_left hk]
  rw [List.getElem?_take]
  rw [if_pos (by omega)]

/--
C10: the Speaker Assigner returns exactly one labeled sentence per input
sentence, in input order, and each output's `start`, `end`, `text` (and the
carried-over `gpt_speaker` label) equal the corresponding input's fields;
the operation only adds `speaker_id` and `confidence`.
-/
theorem assign_preserves_sentence_fields (sentences : List AlignedSentence)
    (diar_segments : List DiarSegment) :
    (assign_speakers_to_sentences sentences diar_segments).length
        = sentences.length ∧
    (assign_speakers_to_sentences sentences diar_segments).map labProj
        = sentences.map sentProj := by
  have h := assignGo_map_proj diar_segments sentences []
  refine ⟨?_, by simpa [assign_speakers_to_sentences] using h⟩
  simpa [assign_speakers_to_sentences] using
    assignGo_length diar_segments sentences []

/-- The per-sentence fallback: with total overlap under 0.1 s (or no
intersecting turn), confidence is zeroed and the speaker comes from the
labeled prefix (default `SPEAKER_00`). -/
theorem assignOne_fallback (labeled : List LabeledSentence)
    (sent : AlignedSentence) (diar : List DiarSegment)
    (h : totalOverlap sent diar < 1/10) :
    (assignOne labeled sent diar).confidence = 0 ∧
    (assignOne labeled sent diar).speaker_id
      = ((labeled.getLast?.map (fun l => l.speaker_id)).getD "SPEAKER_00") := by
  have ht : totalOverlap sent diar
      = ((collectOverlaps sent.start sent.end_ diar).map (fun p => p.2)).sum := rfl
  rw [ht] at h
  unfold assignOne
  dsimp only
  cases maxBySnd (collectOverlaps sent.start sent.end_ diar) with
  | none => exact ⟨rfl, rfl⟩
  | some best0 =>
    dsimp only
    rw [if_pos h, if_pos h]
    exact ⟨rfl, rfl⟩

theorem maxBySnd_singleton (p : String × ℚ) : maxBySnd [p] = some p := rfl

/-- The per-sentence winner when the dict is one speaker with total at least
0.1 s: that speaker, confidence exactly 1. -/
theorem assignOne_singleton (labeled : List LabeledSentence)
    (sent : AlignedSentence) (diar : List DiarSegment) (sp : String)
    (hcol : collectOverlaps sent.start sent.end_ diar
        = [(sp, totalOverlap sent diar)])
    (hv : ¬ totalOverlap sent diar < 1/10) :
    (assignOne labeled sent diar).speaker_id = sp ∧
    (assignOne labeled sent diar).confidence = 1 := by
  have hvpos : 0 < totalOverlap sent diar :=
    lt_of_lt_of_le (by norm_num) (not_lt.mp hv)
  unfold assignOne
  dsimp only
  rw [hcol, maxBySnd_singleton]
  dsimp only
  rw [List.map_cons, List.map_nil, List.sum_cons, List.sum_nil, add_zero]
  rw [if_neg hv, if_neg hv, if_pos hvpos]
  exact ⟨rfl, div_self (ne_of_gt hvpos)⟩

theorem interContribSum_nonneg (s e : ℚ) :
    ∀ diar : List DiarSegment, 0 ≤ interContribSum s e diar
  | [] => le_refl 0
  | u :: rest => by
    rw [interContribSum]
    have h1 : (0:ℚ) ≤ (if u.start < e ∧ s < u.end_ then
        max 0 (min e u.end_ - max s u.start) else 0) := by
      split
      · exact le_max_left 0 _
      · exact le_refl 0
    have h2 := interContribSum_nonneg s e rest
    linarith

theorem interContribSum_ge_of_mem (s e : ℚ) (t : DiarSegment) :
    ∀ diar : List DiarSegment, t ∈ diar →
    (if t.start < e ∧ s < t.end_ then max 0 (min e t.end_ - max s t.start) else 0)
      ≤ interContribSum s e diar
  | [], h => by simp at h
  | u :: rest, h => by
    rw [interContribSum]
    rcases List.mem_cons.mp h with h' | h'
    · subst h'
      have := interContribSum_nonneg s e rest
      linarith
    · have h1 : (0:ℚ) ≤ (if u.start < e ∧ s < u.end_ then
          max 0 (min e u.end_ - max s u.start) else 0) := by
        split
        · exact le_max_left 0 _
        · exact le_refl 0
      have h2 := interContribSum_ge_of_mem s e t rest h'
      linarith

/-- A turn containing the sentence contributes the sentence's full duration,
so the total overlap is at least that duration. -/
theorem totalOverlap_ge_duration (sent : AlignedSentence) (diar : List DiarSegment)
    (t : DiarSegment) (ht : t ∈ diar) (hcont : containedIn sent t)
    (hdur : 0 < sent.end_ - sent.start) :
    sent.end_ - sent.start ≤ totalOverlap sent diar := by
  obtain ⟨hc1, hc2⟩ := hcont
  have hint : t.start < sent.end_ ∧ sent.start < t.end_ :=
    ⟨lt_of_le_of_lt hc1 (by linarith), lt_of_lt_of_le (by linarith) hc2⟩
  have h := interContribSum_ge_of_mem sent.start sent.end_ t diar ht
  rw [if_pos hint] at h
  rw [totalOverlap_eq]
  have : min sent.end_ t.end_ - max sent.start t.start = sent.end_ - sent.start := by
    rw [min_eq_left hc2, max_eq_left hc1]
  rw [this] at h
  exact le_trans (le_max_right 0 _) h

/--
C6: for a sentence whose total accumulated overlap with the diarization
turns is below 0.1 seconds (including the no-intersecting-turn case), the
assigner outputs confidence 0 and the previous output's speaker, or
`SPEAKER_00` for the first sentence.
-/
theorem assign_low_overlap_fallback (sentences : List AlignedSentence)
    (diar_segments : List DiarSegment) (k : Nat) (hk : k < sentences.length)
    (hlow : totalOverlap (sentences.getD k default) diar_segments < 1/10) :
    ((assign_speakers_to_sentences sentences diar_segments).getD k default).confidence = 0 ∧
    ((assign_speakers_to_sentences sentences diar_segments).getD k default).speaker_id
      = (if k = 0 then "SPEAKER_00"
         else ((assign_speakers_to_sentences sentences diar_segments).getD (k-1)
            default).speaker_id) := by
  have hget := assignGo_getD diar_segments sentences [] k hk
  simp only [List.length_nil, Nat.zero_add] at hget
  have hout : assign_speakers_to_sentences sentences diar_segments
      = assignGo diar_segments sentences [] := rfl
  rw [hout, hget]
  have hfall := assignOne_fallback
    ((assignGo diar_segments sentences []).take k)
    (sentences.getD k default) diar_segments hlow
  refine ⟨hfall.1, ?_⟩
  rw [hfall.2]
  by_cases h0 : k = 0
  · subst h0
    simp
  · rw [if_neg h0]
    have hlen : (assignGo diar_segments sentences []).length = sentences.length := by
      simpa using assignGo_length diar_segments sentences []
    rw [getLast?_take_eq _ k h0 (by omega)]
    rw [List.getElem?_eq_getElem (by omega)]
    rw [List.getD_eq_getElem?_getD, List.getElem?_eq_getElem (by omega)]
    rfl

/-- Witness for the fallback theorem: the second sentence has no overlapping
turn, so it inherits the first sentence's voted speaker. -/
theorem assign_low_overlap_fallback_witness :
    ((assign_speakers_to_sentences
        [⟨0, 1, "a", "A"⟩, ⟨5, 6, "b", "B"⟩] [⟨0, 2, "SPEAKER_07"⟩]).getD 1
        default).confidence = 0 ∧
    ((assign_speakers_to_sentences
        [⟨0, 1, "a", "A"⟩, ⟨5, 6, "b", "B"⟩] [⟨0, 2, "SPEAKER_07"⟩]).getD 1
        default).speaker_id
      = (if 1 = 0 then "SPEAKER_00"
         else ((assign_speakers_to_sentences
            [⟨0, 1, "a", "A"⟩, ⟨5, 6, "b", "B"⟩] [⟨0, 2, "SPEAKER_07"⟩]).getD 0
            default).speaker_id) :=
  assign_low_overlap_fallback [⟨0, 1, "a", "A"⟩, ⟨5, 6, "b", "B"⟩]
    [⟨0, 2, "SPEAKER_07"⟩] 1 (by decide)
    (by norm_num [totalOverlap, collectOverlaps, collectOverlapsAux, addOverlap,
      List.getD])

/--
C4 (amended): a sentence of duration at least 0.1 s fully contained in a
diarization turn and overlapping no turn of any other speaker is labeled
with that turn's speaker at confidence exactly 1.
-/
theorem assign_full_containment_confidence_one (sentences : List AlignedSentence)
    (diar_segments : List DiarSegment) (k : Nat) (hk : k < sentences.length)
    (t : DiarSegment) (ht : t ∈ diar_segments)
    (hcont : containedIn (sentences.getD k default) t)
    (hsame : ∀ u ∈ diar_segments,
      intersects (sentences.getD k default) u → u.speaker_id = t.speaker_id)
    (hdur : 1/10 ≤ (sentences.getD k default).end_ - (sentences.getD k default).start) :
    ((assign_speakers_to_sentences sentences diar_segments).getD k default).speaker_id
        = t.speaker_id ∧
    ((assign_speakers_to_sentences sentences diar_segments).getD k default).confidence
        = 1 := by
  have hget := assignGo_getD diar_segments sentences [] k hk
  simp only [List.length_nil, Nat.zero_add] at hget
  have hout : assign_speakers_to_sentences sentences diar_segments
      = assignGo diar_segments sentences [] := rfl
  rw [hout, hget]
  have htot : 1/10 ≤ totalOverlap (sentences.getD k default) diar_segments :=
    le_trans hdur (totalOverlap_ge_duration _ _ t ht hcont (by linarith))
  rcases collectOverlaps_same (sentences.getD k default) t.speaker_id
      diar_segments hsame with hcol | hcol
  · exfalso
    have : totalOverlap (sentences.getD k default) diar_segments = 0 := by
      unfold totalOverlap
      rw [hcol]
      rfl
    rw [this] at htot
    norm_num at htot
  · exact assignOne_singleton _ _ _ _ hcol (by linarith)

/-- Witness for the containment theorem at the spec's own scenario. -/
theorem assign_full_containment_witness :
    ((assign_speakers_to_sentences [⟨0, 2, "hi", "A"⟩]
        [⟨0, 2, "SPEAKER_00"⟩]).getD 0 default).speaker_id = "SPEAKER_00" ∧
    ((assign_speakers_to_sentences [⟨0, 2, "hi", "A"⟩]
        [⟨0, 2, "SPEAKER_00"⟩]).getD 0 default).confidence = 1 :=
  assign_full_containment_confidence_one [⟨0, 2, "hi", "A"⟩]
    [⟨0, 2, "SPEAKER_00"⟩] 0 (by decide) ⟨0, 2, "SPEAKER_00"⟩ (by simp)
    ⟨by norm_num, by norm_num⟩
    (by
      intro u hu _
      rcases List.eq_of_mem_singleton hu with rfl
      rfl)
    (by norm_num)

/-- Counterexample to C4 as stated: a 0.05 s sentence fully contained in the
only turn (speaker `SPEAKER_01`) still falls to the unreliable-overlap
branch: the output is `SPEAKER_00` with confidence 0, not `SPEAKER_01`
with confidence 1. -/
theorem assign_full_containment_cex :
    containedIn (⟨0, 1/20, "hi", "A"⟩ : AlignedSentence) ⟨0, 1, "SPEAKER_01"⟩ ∧
    (∀ u ∈ ([⟨0, 1, "SPEAKER_01"⟩] : List DiarSegment),
      intersects ⟨0, 1/20, "hi", "A"⟩ u → u.speaker_id = "SPEAKER_01") ∧
    ((assign_speakers_to_sentences [⟨0, 1/20, "hi", "A"⟩]
        [⟨0, 1, "SPEAKER_01"⟩]).getD 0 default).speaker_id = "SPEAKER_00" ∧
    ((assign_speakers_to_sentences [⟨0, 1/20, "hi", "A"⟩]
        [⟨0, 1, "SPEAKER_01"⟩]).getD 0 default).confidence = 0 := by
  refine ⟨⟨by norm_num, by norm_num⟩, ?_, ?_, ?_⟩
  · intro u hu _
    rcases List.eq_of_mem_singleton hu with rfl
    rfl
  · norm_num [assign_speakers_to_sentences, assignGo, assignOne, collectOverlaps,
      collectOverlapsAux, addOverlap, maxBySnd, List.getD]
  · norm_num [assign_speakers_to_sentences, assignGo, assignOne, collectOverlaps,
      collectOverlapsAux, addOverlap, maxBySnd, List.getD]

/-! ## Aligner lemmas -/

theorem stripL_eq_nil_all_space (l : List Char) (h : stripL l = []) :
    ∀ c ∈ l, pyIsSpace c := by
  unfold stripL at h
  have h1 := List.reverse_eq_nil_iff.mp h
  have h2 : ∀ c ∈ (l.dropWhile pyIsSpace).reverse, pyIsSpace c := by
    intro c hc
    exact List.dropWhile_eq_nil_iff.mp h1 c hc
  have h3 : ∀ c ∈ l.dropWhile pyIsSpace, pyIsSpace c := by
    intro c hc
    exact h2 c (List.mem_reverse.mpr hc)
  intro c hc
  rw [← List.takeWhile_append_dropWhile (p := pyIsSpace) (l := l)] at hc
  rcases List.mem_append.mp hc with hc' | hc'
  · exact List.mem_takeWhile_imp hc'
  · exact h3 c hc'

theorem toLower_of_space (c : Char) (h : pyIsSpace c = true) :
    Char.toLower c = c := by
  have := of_decide_eq_true h
  rcases this with h' | h' | h' | h' | h' | h' <;> subst h' <;> decide

theorem pyIsSpace_toLower (c : Char) (h : pyIsSpace c = true) :
    pyIsSpace (Char.toLower c) = true := by
  rw [toLower_of_space c h]
  exact h

theorem collapseWsAux_all_space (b : Bool) :
    ∀ l : List Char, (∀ c ∈ l, pyIsSpace c) →
    collapseWsAux b l = if b ∨ l = [] then [] else [' ']
  | [], _ => by cases b <;> simp [collapseWsAux]
  | c :: cs, h => by
    have hc : pyIsSpace c := h c (by simp)
    rw [collapseWsAux, if_pos hc]
    have ih := collapseWsAux_all_space true cs (fun d hd => h d (by simp [hd]))
    rw [if_pos (Or.inl rfl)] at ih
    cases b
    · simp [ih]
    · simp [ih]

/-- A sentence blank after `strip()` has empty normalized text. -/
theorem normalize_of_strip_empty (t : String) (h : pyStrip t = "") :
    normalize_text t = "" := by
  have hall : ∀ c ∈ t.data, pyIsSpace c := by
    apply stripL_eq_nil_all_space
    have : (pyStrip t).data = "".data := by rw [h]
    simpa [pyStrip] using this
  unfold normalize_text pyLower collapseWs
  dsimp only
  have hall2 : ∀ c ∈ (t.data.map Char.toLower).filter
      (fun c => pyIsWord c ∨ pyIsSpace c), pyIsSpace c := by
    intro c hc
    have hc1 := List.mem_of_mem_filter hc
    obtain ⟨d, hd, rfl⟩ := List.mem_map.mp hc1
    exact pyIsSpace_toLower d (hall d hd)
  rw [collapseWsAux_all_space false _ hall2]
  split
  · rfl
  · rfl

theorem alignGo_norm_sum (whisper_segments : List WhisperSegment) :
    ∀ (gs : List GptSentence) (idx : Nat) (aligned : List AlignedSentence),
    ((alignGo whisper_segments gs idx aligned).map
      (fun a => (normalize_text a.text).length)).sum
      = (aligned.map (fun a => (normalize_text a.text).length)).sum
        + (gs.map (fun g => (normalize_text g.text).length)).sum
  | [], idx, aligned => by simp [alignGo]
  | g :: gs, idx, aligned => by
    rw [alignGo]
    by_cases h : pyStrip g.text = ""
    · rw [if_pos h, alignGo_norm_sum whisper_segments gs idx aligned]
      simp [normalize_of_strip_empty g.text h]
    · rw [if_neg h]
      dsimp only
      rw [alignGo_norm_sum whisper_segments gs _ _]
      have htext : ∀ matched aligned',
          (mkAligned g matched aligned').text = g.text := by
        intro matched aligned'
        cases matched <;> rfl
      simp [htext]
      ring

/--
C2 (amended): for every non-empty list of formatter sentences and
**non-empty** raw-segment list, the sum of normalized text lengths over the
Aligner's output equals the sum over the input: the Aligner never drops
sentence text.  (With an empty raw-segment list the Aligner returns `[]`,
as its own guard and the repository's unit test specify.)
-/
theorem aligner_normalized_length_preserved (gpt_sentences : List GptSentence)
    (whisper_segments : List WhisperSegment)
    (h1 : gpt_sentences ≠ []) (h2 : whisper_segments ≠ []) :
    ((align_sentences_with_whisper gpt_sentences whisper_segments).map
      (fun a => (normalize_text a.text).length)).sum
      = (gpt_sentences.map (fun g => (normalize_text g.text).length)).sum := by
  unfold align_sentences_with_whisper
  rw [if_neg (by simp [h1, h2])]
  simpa using alignGo_norm_sum whisper_segments gpt_sentences 0 []

/-- Witness: the spec's own aligner scenario preserves normalized length. -/
theorem aligner_normalized_length_preserved_witness :
    ((align_sentences_with_whisper [⟨"Hello world", "A"⟩]
        [⟨0, 3/2, "Hello world"⟩]).map
      (fun a => (normalize_text a.text).length)).sum
      = (([⟨"Hello world", "A"⟩] : List GptSentence).map
        (fun g => (normalize_text g.text).length)).sum :=
  aligner_normalized_length_preserved [⟨"Hello world", "A"⟩]
    [⟨0, 3/2, "Hello world"⟩] (by simp) (by simp)

/-- Counterexample to C2 as stated ("for all raw-segment inputs"): with a
non-empty sentence list and an empty raw-segment list the Aligner returns
`[]`, so 2 normalized characters of input text are dropped. -/
theorem aligner_text_loss_empty_segments_cex :
    align_sentences_with_whisper [⟨"hi", "A"⟩] [] = [] ∧
    (([⟨"hi", "A"⟩] : List GptSentence).map
      (fun g => (normalize_text g.text).length)).sum = 2 :=
  ⟨rfl, rfl⟩

/-- The matched segments of one search are the given accumulator followed by
a sublist of the remaining segments (segments are collected in order and
never invented). -/
theorem searchFrom_sublist (gpt : String) :
    ∀ (rest : List WhisperSegment) (i : Nat) (acc : String)
      (matched : List WhisperSegment),
    ∃ t, (searchFrom gpt rest i acc matched).1 = matched ++ t ∧ t.Sublist rest
  | [], _, _, matched => ⟨[], by simp [searchFrom]⟩
  | seg :: rest, i, acc, matched => by
    rw [searchFrom]
    by_cases h1 : 7/10 < text_similarity gpt (acc ++ " " ++ seg.text) ∨
        (normalize_text gpt).length
          ≤ (normalize_text (acc ++ " " ++ seg.text)).length
    · rw [if_pos h1]
      exact ⟨[seg], rfl, by simp⟩
    · rw [if_neg h1]
      by_cases h2 : 3/10 < text_similarity gpt (acc ++ " " ++ seg.text)
      · rw [if_pos h2]
        obtain ⟨t, ht1, ht2⟩ := searchFrom_sublist gpt rest (i + 1)
          (acc ++ " " ++ seg.text) (matched ++ [seg])
        exact ⟨seg :: t, by simp [ht1], ht2.cons₂ seg⟩
      · rw [if_neg h2]
        obtain ⟨t, ht1, ht2⟩ := searchFrom_sublist gpt rest (i + 1)
          (acc ++ " " ++ seg.text) matched
        exact ⟨t, ht1, ht2.cons seg⟩

/-- Every constructed aligned entry has `start ≤ end` when the matched
segments are well-formed and ordered among themselves. -/
theorem mkAligned_start_le_end (g : GptSentence) (matched : List WhisperSegment)
    (aligned : List AlignedSentence)
    (hmem : ∀ s ∈ matched, s.start ≤ s.end_)
    (hpair : matched.Pairwise wLeStart) :
    (mkAligned g matched aligned).start ≤ (mkAligned g matched aligned).end_ := by
  cases matched with
  | nil =>
    have hpos : 0 ≤ (g.text.length : ℚ) * (1/10) := by positivity
    unfold mkAligned
    cases aligned.getLast? <;> dsimp <;> linarith
  | cons m ms =>
    unfold mkAligned
    dsimp only
    have hlast : (m :: ms).getLast (by simp) ∈ m :: ms := List.getLast_mem _
    have h2 : ((m :: ms).getLast (by simp)).start
        ≤ ((m :: ms).getLast (by simp)).end_ := hmem _ hlast
    rcases List.mem_cons.mp hlast with he | he
    · have hst : ((m :: ms).getLast (by simp)).start = m.start := by rw [he]
      exact hst ▸ h2
    · have h1 : wLeStart m ((m :: ms).getLast (by simp)) :=
        (List.pairwise_cons.mp hpair).1 _ he
      exact le_trans h1 h2

theorem alignGo_start_le_end (whisper_segments : List WhisperSegment)
    (hmem : ∀ s ∈ whisper_segments, s.start ≤ s.end_)
    (hpair : whisper_segments.Pairwise wLeStart) :
    ∀ (gs : List GptSentence) (idx : Nat) (aligned : List AlignedSentence),
    (∀ a ∈ aligned, a.start ≤ a.end_) →
    ∀ a ∈ alignGo whisper_segments gs idx aligned, a.start ≤ a.end_
  | [], _, aligned, hacc => by
    rw [alignGo]
    exact hacc
  | g :: gs, idx, aligned, hacc => by
    rw [alignGo]
    by_cases h : pyStrip g.text = ""
    · rw [if_pos h]
      exact alignGo_start_le_end whisper_segments hmem hpair gs idx aligned hacc
    · rw [if_neg h]
      dsimp only
      apply alignGo_start_le_end whisper_segments hmem hpair gs _ _
      intro a ha
      rcases List.mem_append.mp ha with ha' | ha'
      · exact hacc a ha'
      · rcases List.mem_singleton.mp ha' with rfl
        set res := searchFrom g.text (whisper_segments.drop idx) idx "" [] with hres
        by_cases hf : res.1 = [] ∧ res.2.getD idx < whisper_segments.length
        · rw [if_pos hf]
          apply mkAligned_start_le_end
          · intro s hs
            rcases List.mem_singleton.mp hs with rfl
            apply hmem
            rw [List.getD_eq_getElem _ _ hf.2]
            exact List.getElem_mem _
          · simp
        · rw [if_neg hf]
          obtain ⟨t, ht1, ht2⟩ := searchFrom_sublist g.text
            (whisper_segments.drop idx) idx "" []
          have hsub : res.1.Sublist whisper_segments := by
            rw [← hres] at ht1
            rw [ht1]
            simp only [List.nil_append]
            exact ht2.trans (List.drop_sublist idx whisper_segments)
          apply mkAligned_start_le_end
          · intro s hs
            exact hmem s (hsub.mem hs)
          · exact hpair.sublist hsub

/--
C3 (amended): for ordered raw segments (each with `start ≤ end`, starts
non-decreasing), every AlignedSentence the Aligner returns satisfies
`start_sec ≤ end_sec`.  The start values across the output sequence are
NOT necessarily non-decreasing (see the counterexample): a sentence whose
forward search accumulates partial matches without breaking leaves the
cursor unmoved, and the next sentence may match an earlier segment.
-/
theorem aligner_start_le_end (gpt_sentences : List GptSentence)
    (whisper_segments : List WhisperSegment)
    (hchain : List.Chain' wLeStart whisper_segments)
    (hse : ∀ s ∈ whisper_segments, s.start ≤ s.end_) :
    ∀ a ∈ align_sentences_with_whisper gpt_sentences whisper_segments,
      a.start ≤ a.end_ := by
  unfold align_sentences_with_whisper
  by_cases h : gpt_sentences = [] ∨ whisper_segments = []
  · rw [if_pos h]
    intro a ha
    simp at ha
  · rw [if_neg h]
    exact alignGo_start_le_end whisper_segments hse
      (List.chain'_iff_pairwise.mp hchain) gpt_sentences 0 [] (by simp)

/-- Witness: one sentence, one well-formed segment; the single output has
`start_sec ≤ end_sec`. -/
theorem aligner_start_le_end_witness :
    ((align_sentences_with_whisper [⟨"ab", "A"⟩] [⟨0, 1, "ab"⟩]).getD 0
      default).start
      ≤ ((align_sentences_with_whisper [⟨"ab", "A"⟩] [⟨0, 1, "ab"⟩]).getD 0
        default).end_ := by
  have halign : align_sentences_with_whisper [⟨"ab", "A"⟩] [⟨0, 1, "ab"⟩]
      = [⟨0, 1, "ab", "A"⟩] := by
    norm_num +decide [align_sentences_with_whisper, alignGo, searchFrom,
      mkAligned, normalize_text, pyLower, pyStrip, stripL, collapseWs,
      collapseWsAux, pyIsWord, pyIsSpace, List.dropWhile, List.filter]
  exact aligner_start_le_end [⟨"ab", "A"⟩] [⟨0, 1, "ab"⟩]
    (by simp)
    (by
      intro s hs
      rcases List.eq_of_mem_singleton hs with rfl
      norm_num)
    _ (by rw [halign]; simp)

/-- Counterexample to C3 as stated: with ordered raw segments
`[0, 0.5, "z"]`, `[1, 2, "ab"]` and sentences `"ab cd"` then `"z"`, the
first sentence only accumulates a partial match (similarity 0.4) without
breaking, leaving the cursor at 0; the second sentence then matches the
first segment, so the output start times are `[1, 0]` — decreasing. -/
theorem aligner_start_monotonicity_cex :
    List.Chain' wLeStart [⟨0, 1/2, "z"⟩, ⟨1, 2, "ab"⟩] ∧
    (∀ s ∈ ([⟨0, 1/2, "z"⟩, ⟨1, 2, "ab"⟩] : List WhisperSegment),
      s.start ≤ s.end_) ∧
    ((align_sentences_with_whisper [⟨"ab cd", "A"⟩, ⟨"z", "B"⟩]
      [⟨0, 1/2, "z"⟩, ⟨1, 2, "ab"⟩]).map (fun a => a.start)) = [1, 0] ∧
    ¬ ((1 : ℚ) ≤ 0) := by
  refine ⟨?_, ?_, ?_, by norm_num⟩
  · simp [List.chain'_cons, wLeStart]
  · intro s hs
    rcases List.mem_cons.mp hs with rfl | hs'
    · norm_num
    · rcases List.eq_of_mem_singleton hs' with rfl
      norm_num
  · norm_num +decide [align_sentences_with_whisper, alignGo, searchFrom,
      mkAligned, normalize_text, pyLower, pyStrip, stripL, collapseWs,
      collapseWsAux, pyIsWord, pyIsSpace, text_similarity, pyRatio,
      pyMatchesTotal, matchingBlockSizes, find_longest_match, flmStep,
      flmProcessJ, extendLeft, extendRight, b2jA, b2j, lookupD,
      List.dropWhile, List.filter, List.range, List.range', List.takeWhile]

/-! ## Persistence-pass lemmas -/

theorem saveGo_map_seq (start_seq : Nat) (conv_start_time time_offset : Int)
    (has_timestamps : Bool) :
    ∀ (sentences : List SaveSentence) (i : Nat),
    (∀ s ∈ sentences, pyStrip s.text ≠ "") →
    (saveGo start_seq conv_start_time time_offset has_timestamps sentences i).map
        TranscriptRow.seq
      = List.range' i sentences.length
  | [], i, _ => by simp [saveGo]
  | sent :: rest, i, hnb => by
    rw [saveGo]
    dsimp only
    rw [if_neg (hnb sent (by simp))]
    rw [List.map_cons]
    rw [saveGo_map_seq start_seq conv_start_time time_offset has_timestamps rest
      (i + 1) (fun s hs => hnb s (by simp [hs]))]
    rw [List.length_cons, List.range'_succ]

/--
C1 (amended): a reconciliation pass whose formatted sentences all have
non-empty stripped text creates FinalTranscriptSegments whose `seq` values
are exactly the contiguous block `{start_seq+1, …, start_seq+N}` (no gaps,
no repeats), `N` the number of persisted sentences and `start_seq` the
recording's starting offset recorded at recording start (the pass first
deletes every row with `seq > start_seq`).  A sentence whose stripped text
is empty is skipped but still advances the enumerate counter, leaving a gap
(see the counterexample); also, the code takes `start_seq` from the
conversation's transcript count, not its maximum `seq`.
-/
theorem save_rows_seq_contiguous (start_seq : Nat)
    (conv_start_time time_offset : Int) (sentences : List SaveSentence)
    (hnb : ∀ s ∈ sentences, pyStrip s.text ≠ "") :
    (save_formatted_rows start_seq conv_start_time time_offset sentences).map
        TranscriptRow.seq
      = List.range' (start_seq + 1) sentences.length ∧
    (save_formatted_rows start_seq conv_start_time time_offset
        sentences).length = sentences.length := by
  have h := saveGo_map_seq start_seq conv_start_time time_offset
    (match sentences.head? with | some s => s.start.isSome | none => false)
    sentences (start_seq + 1) hnb
  refine ⟨h, ?_⟩
  have := congrArg List.length h
  simpa [save_formatted_rows] using this

/-- Witness: two non-blank sentences starting at offset 0 get `seq` 1, 2. -/
theorem save_rows_seq_contiguous_witness :
    (save_formatted_rows 0 0 0
        [⟨"a", some "A", none, none, none⟩, ⟨"b", some "B", none, none, none⟩]).map
        TranscriptRow.seq
      = List.range' 1 2 ∧
    (save_formatted_rows 0 0 0
        [⟨"a", some "A", none, none, none⟩, ⟨"b", some "B", none, none, none⟩]).length
      = 2 :=
  save_rows_seq_contiguous 0 0 0
    [⟨"a", some "A", none, none, none⟩, ⟨"b", some "B", none, none, none⟩]
    (by decide)

/-- Counterexample to C1 as stated: with a blank second sentence the pass
persists two rows whose `seq` values are `[1, 3]` — a gap, not the
contiguous `{1, 2}`. -/
theorem save_rows_seq_gap_cex :
    (save_formatted_rows 0 0 0
        [⟨"a", some "A", none, none, none⟩, ⟨" ", some "A", none, none, none⟩,
         ⟨"b", some "B", none, none, none⟩]).length = 2 ∧
    (save_formatted_rows 0 0 0
        [⟨"a", some "A", none, none, none⟩, ⟨" ", some "A", none, none, none⟩,
         ⟨"b", some "B", none, none, none⟩]).map TranscriptRow.seq = [1, 3] ∧
    ([1, 3] : List Nat) ≠ List.range' 1 2 := by
  refine ⟨by decide, by decide, by decide⟩

/-! ## Quality Gate lemmas -/

/--
C9 (amended): when the confidence and repetition checks pass, the stateful
semantic-coherence check runs THIRD — before the pattern-sanity check, not
after it.  On an input where the coherence check also passes and the
pattern check flags a hallucination, the detector returns the pattern
check's result, but the rolling history buffer is NOT left unchanged: it
becomes the buffer the passing coherence check produced (the text appended,
trimmed to the last 5).
-/
theorem detector_pattern_flag_after_coherence (history_texts : List String)
    (text : String) (segments : Option (List ConfSegment))
    (h0 : pyStrip text ≠ "")
    (h1 : (_check_whisper_confidence text segments).is_hallucination = false)
    (h2 : (_check_repetition text).is_hallucination = false)
    (h3 : (_check_semantic_coherence history_texts text).1.is_hallucination = false)
    (h4 : (_check_suspicious_patterns text).is_hallucination = true) :
    detect_from_whisper history_texts text segments
      = (_check_suspicious_patterns text,
         (_check_semantic_coherence history_texts text).2) := by
  unfold detect_from_whisper
  rw [if_neg h0]
  simp [h1, h2, h3, h4]

/-- Witness: on text `"ab"` with empty history, checks (a)–(c) pass, the
coherence check passes (appending `"ab"`), and the pattern check flags
`text_too_short`; the detector returns the pattern verdict with the updated
buffer. -/
theorem detector_pattern_flag_witness :
    detect_from_whisper [] "ab" none
      = (_check_suspicious_patterns "ab", (_check_semantic_coherence [] "ab").2) :=
  detector_pattern_flag_after_coherence [] "ab" none (by decide) rfl rfl rfl rfl

/-- Counterexample to C9 as stated: on `"ab"` the empty, confidence and
repetition checks pass and the pattern check flags, yet the call does NOT
leave the history buffer unchanged — it grows from `[]` to `["ab"]`,
because the stateful coherence check ran (third) and appended the text. -/
theorem detector_history_changed_cex :
    pyStrip "ab" ≠ "" ∧
    (_check_whisper_confidence "ab" none).is_hallucination = false ∧
    (_check_repetition "ab").is_hallucination = false ∧
    (_check_suspicious_patterns "ab").is_hallucination = true ∧
    (detect_from_whisper [] "ab" none).1 = _check_suspicious_patterns "ab" ∧
    (detect_from_whisper [] "ab" none).2 = ["ab"] ∧
    (["ab"] : List String) ≠ [] := by
  exact ⟨by decide, rfl, rfl, rfl, rfl, rfl, by simp⟩

/-! ## Overlap-merge (`merge_asr_and_diarization`) lemmas -/

theorem mem_turnMatchedIdx (asr_segments : List AsrSegment) (used : List Nat)
    (turn : DiarTurnMs) (i : Nat) :
    i ∈ turnMatchedIdx asr_segments used turn ↔
      i < asr_segments.length ∧ i ∉ used ∧
        asrMatch turn (asr_segments.getD i default) := by
  unfold turnMatchedIdx
  rw [List.mem_filter]
  simp [List.mem_range, and_assoc]

/-- Indices collected by later turns avoid everything already used. -/
theorem mergeTurnsGo_avoid (asr_segments : List AsrSegment) :
    ∀ (diar : List DiarTurnMs) (used : List Nat),
    ∀ p ∈ mergeTurnsGo asr_segments diar used, ∀ i ∈ p.2, i ∉ used
  | [], _, p, hp => by simp [mergeTurnsGo] at hp
  | turn :: rest, used, p, hp => by
    rw [mergeTurnsGo] at hp
    rcases List.mem_cons.mp hp with rfl | hp'
    · intro i hi
      exact ((mem_turnMatchedIdx asr_segments used turn i).mp hi).2.1
    · intro i hi
      have := mergeTurnsGo_avoid asr_segments rest
        (used ++ turnMatchedIdx asr_segments used turn) p hp' i hi
      intro hmem
      exact this (List.mem_append.mpr (Or.inl hmem))

/-- C7 core: the per-turn matched index lists are pairwise disjoint — each
raw segment's text lands in at most one merged segment. -/
theorem mergeTurnsGo_pairwise_disjoint (asr_segments : List AsrSegment) :
    ∀ (diar : List DiarTurnMs) (used : List Nat),
    List.Pairwise (fun p q => ∀ i ∈ p.2, i ∉ q.2)
      (mergeTurnsGo asr_segments diar used)
  | [], _ => by simp [mergeTurnsGo]
  | turn :: rest, used => by
    rw [mergeTurnsGo]
    refine List.pairwise_cons.mpr ⟨?_, mergeTurnsGo_pairwise_disjoint asr_segments rest _⟩
    intro q hq i hi
    intro hiq
    have := mergeTurnsGo_avoid asr_segments rest
      (used ++ turnMatchedIdx asr_segments used turn) q hq i hiq
    exact this (List.mem_append.mpr (Or.inr hi))

theorem mergeTurnsGo_match (asr_segments : List AsrSegment) :
    ∀ (diar : List DiarTurnMs) (used : List Nat),
    ∀ p ∈ mergeTurnsGo asr_segments diar used,
    ∀ i ∈ p.2, i < asr_segments.length ∧
      asrMatch p.1 (asr_segments.getD i default)
  | [], _, p, hp => by simp [mergeTurnsGo] at hp
  | turn :: rest, used, p, hp => by
    rw [mergeTurnsGo] at hp
    rcases List.mem_cons.mp hp with rfl | hp'
    · intro i hi
      have h := (mem_turnMatchedIdx asr_segments used turn i).mp hi
      exact ⟨h.1, h.2.2⟩
    · exact mergeTurnsGo_match asr_segments rest _ p hp'

/--
C7: in `merge_asr_and_diarization`, (i) each raw ASR segment index is
included in at most one merged segment; (ii) an index is included in a
turn's merged text only when its segment has positive duration, positive
overlap with that turn, and overlap ratio (overlap / its own duration) at
least 0.45; (iii) an index below the threshold for every turn appears in no
merged segment; (iv) the output is sorted by start time.
-/
theorem merge_asr_matching_properties (asr_segments : List AsrSegment)
    (diar_segments : List DiarTurnMs) :
    List.Pairwise (fun p q => ∀ i ∈ p.2, i ∉ q.2)
      (mergeTurns asr_segments diar_segments) ∧
    (∀ p ∈ mergeTurns asr_segments diar_segments, ∀ i ∈ p.2,
      asrMatch p.1 (asr_segments.getD i default)) ∧
    (∀ i : Nat, (∀ turn ∈ diar_segments,
        ¬ asrMatch turn (asr_segments.getD i default)) →
      ∀ p ∈ mergeTurns asr_segments diar_segments, i ∉ p.2) ∧
    List.Sorted leStart (merge_asr_and_diarization asr_segments diar_segments) := by
  refine ⟨mergeTurnsGo_pairwise_disjoint asr_segments diar_segments [],
    fun p hp i hi => (mergeTurnsGo_match asr_segments diar_segments [] p hp i hi).2,
    ?_, ?_⟩
  · intro i hno p hp hip
    have hmem : p ∈ mergeTurnsGo asr_segments diar_segments [] := hp
    -- p.1 is a member turn: show by an auxiliary induction inline
    have hturn : p.1 ∈ diar_segments := by
      clear hno hip hp
      revert p
      have : ∀ (diar : List DiarTurnMs) (used : List Nat) (p : DiarTurnMs × List Nat),
          p ∈ mergeTurnsGo asr_segments diar used → p.1 ∈ diar := by
        intro diar
        induction diar with
        | nil => intro used p hp; simp [mergeTurnsGo] at hp
        | cons turn rest ih =>
          intro used p hp
          rw [mergeTurnsGo] at hp
          rcases List.mem_cons.mp hp with rfl | hp'
          · simp
          · exact List.mem_cons.mpr (Or.inr (ih _ p hp'))
      intro p hp
      exact this diar_segments [] p hp
    exact hno p.1 hturn (mergeTurnsGo_match asr_segments diar_segments [] p hp i hip).2
  · unfold merge_asr_and_diarization
    split
    · exact List.sorted_nil
    · exact List.sorted_insertionSort leStart _

/-! ## Tokenization lemmas (`str.split` / `" ".join` round trip) -/

theorem splitAux_clean : ∀ (l acc : List Char), (∀ c ∈ acc, ¬ pyIsSpace c) →
    ∀ t ∈ splitAux l acc, t ≠ [] ∧ ∀ c ∈ t, ¬ pyIsSpace c
  | [], acc, hacc => by
    rw [splitAux]
    split
    · simp
    · next hne =>
      intro t ht
      rcases List.mem_singleton.mp ht with rfl
      refine ⟨by simpa using hne, ?_⟩
      intro c hc
      exact hacc c (List.mem_reverse.mp hc)
  | c :: cs, acc, hacc => by
    rw [splitAux]
    by_cases hws : pyIsSpace c
    · rw [if_pos hws]
      by_cases hacc0 : acc = []
      · rw [if_pos hacc0]
        exact splitAux_clean cs [] (by simp)
      · rw [if_neg hacc0]
        intro t ht
        rcases List.mem_cons.mp ht with rfl | ht'
        · refine ⟨by simpa using hacc0, ?_⟩
          intro d hd
          exact hacc d (List.mem_reverse.mp hd)
        · exact splitAux_clean cs [] (by simp) t ht'
    · rw [if_neg hws]
      apply splitAux_clean cs (c :: acc)
      intro d hd
      rcases List.mem_cons.mp hd with rfl | hd'
      · exact hws
      · exact hacc d hd'

/-- Every `str.split()` token is non-empty and whitespace-free. -/
theorem pySplit_clean (s : String) : ∀ w ∈ pySplit s, cleanWord w := by
  intro w hw
  unfold pySplit at hw
  obtain ⟨t, ht, rfl⟩ := List.mem_map.mp hw
  obtain ⟨h1, h2⟩ := splitAux_clean s.data [] (by simp) t ht
  constructor
  · intro he
    apply h1
    have : (String.mk t).data = ("" : String).data := by rw [he]
    simpa using this
  · exact h2

theorem splitAux_word_front : ∀ (w l acc : List Char),
    (∀ c ∈ w, ¬ pyIsSpace c) →
    splitAux (w ++ l) acc = splitAux l (w.reverse ++ acc)
  | [], l, acc, _ => by simp
  | c :: w', l, acc, h => by
    rw [List.cons_append, splitAux, if_neg (h c (by simp))]
    rw [splitAux_word_front w' l (c :: acc) (fun d hd => h d (by simp [hd]))]
    simp

theorem splitAux_all_space : ∀ l : List Char, (∀ c ∈ l, pyIsSpace c) →
    splitAux l [] = []
  | [], _ => by simp [splitAux]
  | c :: cs, h => by
    rw [splitAux, if_pos (h c (by simp)), if_pos rfl]
    exact splitAux_all_space cs (fun d hd => h d (by simp [hd]))

theorem mk_data_eq (s : String) : String.mk s.data = s := rfl

/-- `" ".join` then `split()` is the identity on clean word lists. -/
theorem pySplit_joinSp : ∀ ws : List String, (∀ w ∈ ws, cleanWord w) →
    pySplit (joinSp ws) = ws
  | [], _ => rfl
  | [w], h => by
    obtain ⟨h1, h2⟩ := h w (by simp)
    unfold pySplit joinSp
    have : w.data = w.data ++ [] := by simp
    rw [this, splitAux_word_front w.data [] [] (by simpa using h2)]
    rw [splitAux]
    rw [if_neg (by simpa using fun he => h1 (by
      have := congrArg String.mk (List.reverse_eq_nil_iff.mp (by simpa using he))
      simpa using this))]
    simp
  | w :: w' :: rest, h => by
    obtain ⟨h1, h2⟩ := h w (by simp)
    have hdata : (joinSp (w :: w' :: rest)).data
        = w.data ++ (' ' :: (joinSp (w' :: rest)).data) := by
      show (w ++ " " ++ joinSp (w' :: rest)).data = _
      rw [String.data_append, String.data_append]
      simp
    unfold pySplit
    rw [hdata, splitAux_word_front w.data _ [] (by simpa using h2)]
    rw [splitAux, if_pos (by decide)]
    rw [if_neg (by simpa using fun he => h1 (by
      have := congrArg String.mk (List.reverse_eq_nil_iff.mp (by simpa using he))
      simpa using this))]
    rw [List.map_cons]
    have ih := pySplit_joinSp (w' :: rest) (fun u hu => h u (by simp [hu]))
    unfold pySplit at ih
    rw [ih]
    simp

theorem joinSp_append : ∀ xs ys : List String, xs ≠ [] → ys ≠ [] →
    joinSp (xs ++ ys) = joinSp xs ++ " " ++ joinSp ys
  | [], _, hx, _ => absurd rfl hx
  | [x], ys, _, hy => by
    cases ys with
    | nil => exact absurd rfl hy
    | cons y ys' => rfl
  | x :: x' :: rest, ys, _, hy => by
    rw [List.cons_append]
    show x ++ " " ++ joinSp (x' :: rest ++ ys) = _
    rw [joinSp_append (x' :: rest) ys (by simp) hy]
    show _ = x ++ " " ++ joinSp (x' :: rest) ++ " " ++ joinSp ys
    rw [← String.append_assoc, ← String.append_assoc]

/-! ## Full-text fallback merge lemmas -/

theorem seg_count_pos (x : Int) : 1 ≤ (max 1 x).toNat := by
  have h : (1 : Int) ≤ max 1 x := le_max_left 1 x
  have := Int.toNat_le_toNat h
  simpa using this

theorem fbGo_cursor_le (words : List String) (total : Int) :
    ∀ (diar : List DiarTurnMs) (idx : Nat), idx ≤ (fbGo words total diar idx).2
  | [], idx => le_refl idx
  | d :: rest, idx => by
    simp only [fbGo]
    have h := fbGo_cursor_le words total rest
      (idx + (max 1 (pyInt ((words.length : ℚ) *
        (((d.end_ms - d.start_ms : Int) : ℚ) / (total : ℚ))))).toNat)
    split
    · exact le_trans (Nat.le_add_right idx _) h
    · exact le_trans (Nat.le_add_right idx _) h

theorem fbGo_flatten (words : List String) (total : Int)
    (hclean : ∀ w ∈ words, cleanWord w) :
    ∀ (diar : List DiarTurnMs) (idx : Nat),
    (((fbGo words total diar idx).1).map (fun m => pySplit m.text)).flatten
      = (words.drop idx).take ((fbGo words total diar idx).2 - idx)
  | [], idx => by simp [fbGo]
  | d :: rest, idx => by
    simp only [fbGo]
    set c := (max 1 (pyInt ((words.length : ℚ) *
      (((d.end_ms - d.start_ms : Int) : ℚ) / (total : ℚ))))).toNat with hc
    have hc1 : 1 ≤ c := seg_count_pos _
    have hrec := fbGo_flatten words total hclean rest (idx + c)
    have hcur := fbGo_cursor_le words total rest (idx + c)
    by_cases hsw : (words.drop idx).take c = []
    · rw [if_pos hsw]
      have hdrop : words.drop idx = [] := by
        cases hdw : words.drop idx with
        | nil => rfl
        | cons a as =>
          rw [hdw] at hsw
          cases hcc : c with
          | zero => omega
          | succ n => rw [hcc] at hsw; simp at hsw
      have hlen : words.length ≤ idx := List.drop_eq_nil_iff.mp hdrop
      have hdrop2 : words.drop (idx + c) = [] :=
        List.drop_eq_nil_iff.mpr (by omega)
      rw [hrec, hdrop, hdrop2]
      simp
    · rw [if_neg hsw]
      dsimp only
      rw [List.map_cons, List.flatten_cons]
      have hchunk : pySplit (joinSp ((words.drop idx).take c))
          = (words.drop idx).take c := by
        apply pySplit_joinSp
        intro w hw
        exact hclean w (List.mem_of_mem_drop (List.mem_of_mem_take hw))
      rw [hchunk, hrec]
      have harith : (fbGo words total rest (idx + c)).2 - idx
          = c + ((fbGo words total rest (idx + c)).2 - (idx + c)) := by omega
      rw [harith, List.take_add, List.drop_drop]

theorem fbGo_nonempty (words : List String) (total : Int) :
    ∀ (diar : List DiarTurnMs) (idx : Nat), diar ≠ [] → words.drop idx ≠ [] →
    (fbGo words total diar idx).1 ≠ []
  | [], _, hd, _ => absurd rfl hd
  | d :: rest, idx, _, hw => by
    simp only [fbGo]
    have hc1 : 1 ≤ (max 1 (pyInt ((words.length : ℚ) *
        (((d.end_ms - d.start_ms : Int) : ℚ) / (total : ℚ))))).toNat :=
      seg_count_pos _
    have hsw : (words.drop idx).take (max 1 (pyInt ((words.length : ℚ) *
        (((d.end_ms - d.start_ms : Int) : ℚ) / (total : ℚ))))).toNat ≠ [] := by
      cases hdw : words.drop idx with
      | nil => exact absurd hdw hw
      | cons a as =>
        cases hcc : (max 1 (pyInt ((words.length : ℚ) *
            (((d.end_ms - d.start_ms : Int) : ℚ) / (total : ℚ))))).toNat with
        | zero => omega
        | succ n => simp
    rw [if_neg hsw]
    simp

/-- Every segment the fallback loop emits carries the join of a non-empty
clean chunk of words. -/
theorem fbGo_texts (words : List String) (total : Int)
    (hclean : ∀ w ∈ words, cleanWord w) :
    ∀ (diar : List DiarTurnMs) (idx : Nat),
    ∀ m ∈ (fbGo words total diar idx).1,
    ∃ chunk, chunk ≠ [] ∧ (∀ w ∈ chunk, cleanWord w) ∧ m.text = joinSp chunk
  | [], idx, m, hm => by simp [fbGo] at hm
  | d :: rest, idx, m, hm => by
    simp only [fbGo] at hm
    by_cases hsw : (words.drop idx).take (max 1 (pyInt ((words.length : ℚ) *
        (((d.end_ms - d.start_ms : Int) : ℚ) / (total : ℚ))))).toNat = []
    · rw [if_pos hsw] at hm
      exact fbGo_texts words total hclean rest _ m hm
    · rw [if_neg hsw] at hm
      rcases List.mem_cons.mp hm with rfl | hm'
      · refine ⟨_, hsw, ?_, rfl⟩
        intro w hw
        exact hclean w (List.mem_of_mem_drop (List.mem_of_mem_take hw))
      · exact fbGo_texts words total hclean rest _ m hm'

theorem updateLastText_flatten :
    ∀ (l : List SpeakerSegment) (lastSeg : SpeakerSegment)
      (chunk rws : List String), l.getLast? = some lastSeg →
    chunk ≠ [] → rws ≠ [] →
    (∀ w ∈ chunk, cleanWord w) → (∀ w ∈ rws, cleanWord w) →
    lastSeg.text = joinSp chunk →
    ((updateLastText l (" " ++ joinSp rws)).map (fun m => pySplit m.text)).flatten
      = (l.map (fun m => pySplit m.text)).flatten ++ rws
  | [], lastSeg, _, _, hsome, _, _, _, _, _ => by simp at hsome
  | [x], lastSeg, chunk, rws, hsome, hch, hrw, hcc, hrc, hlast => by
    have hx : x.text = joinSp chunk := by
      have : x = lastSeg := by simpa using hsome
      rw [this, hlast]
    rw [updateLastText]
    rw [List.map_cons, List.map_nil, List.flatten_cons, List.flatten_nil]
    rw [List.map_cons, List.map_nil, List.flatten_cons, List.flatten_nil]
    dsimp only
    rw [hx, ← String.append_assoc, ← joinSp_append chunk rws hch hrw]
    rw [pySplit_joinSp chunk hcc, pySplit_joinSp (chunk ++ rws) (by
      intro w hw
      rcases List.mem_append.mp hw with h | h
      · exact hcc w h
      · exact hrc w h)]
    simp
  | x :: y :: rest, lastSeg, chunk, rws, hsome, hch, hrw, hcc, hrc, hlast => by
    rw [updateLastText]
    rw [List.map_cons, List.flatten_cons, List.map_cons, List.flatten_cons]
    rw [updateLastText_flatten (y :: rest) lastSeg chunk rws
      (by rw [← hsome]; exact List.getLast?_cons_cons.symm)
      hch hrw hcc hrc hlast]
    rw [List.append_assoc]

/--
C8: for every `fullText` with non-empty whitespace tokenization and every
non-empty turn list of positive total duration, concatenating (in order)
the word sequences of the segments `fallback_merge_with_full_text` returns
yields exactly the tokenization of `fullText`: no word is discarded and
none duplicated.
-/
theorem fallback_merge_preserves_words (full_text : String)
    (diar_segments : List DiarTurnMs)
    (hw : pySplit full_text ≠ [])
    (hd : diar_segments ≠ [])
    (ht : 0 < (diar_segments.map (fun d => d.end_ms - d.start_ms)).sum) :
    ((fallback_merge_with_full_text full_text diar_segments).map
      (fun m => pySplit m.text)).flatten = pySplit full_text := by
  have hstrip : ¬ pyStrip full_text = "" := by
    intro he
    apply hw
    have hall : ∀ c ∈ full_text.data, pyIsSpace c := by
      apply stripL_eq_nil_all_space
      have : (pyStrip full_text).data = ("" : String).data := by rw [he]
      simpa [pyStrip] using this
    unfold pySplit
    rw [splitAux_all_space full_text.data hall]
    rfl
  unfold fallback_merge_with_full_text
  rw [if_neg (by simp [hstrip, hd])]
  rw [if_neg hw, if_neg (by omega)]
  dsimp only
  set words := pySplit full_text with hwords
  set total := (diar_segments.map (fun d => d.end_ms - d.start_ms)).sum with htot
  have hclean : ∀ w ∈ words, cleanWord w := pySplit_clean full_text
  have hflat := fbGo_flatten words total hclean diar_segments 0
  have hne : (fbGo words total diar_segments 0).1 ≠ [] :=
    fbGo_nonempty words total diar_segments 0 hd (by simpa using hw)
  simp only [List.drop_zero, Nat.sub_zero] at hflat
  by_cases hrem : (fbGo words total diar_segments 0).2 < words.length ∧
      (fbGo words total diar_segments 0).1 ≠ []
  · rw [if_pos hrem]
    obtain ⟨chunk, hch, hcc, hlast⟩ := fbGo_texts words total hclean
      diar_segments 0 _ (List.getLast_mem hne)
    rw [updateLastText_flatten _ ((fbGo words total diar_segments 0).1.getLast hne)
      chunk (words.drop (fbGo words total diar_segments 0).2)
      (List.getLast?_eq_getLast _ hne) hch
      (by
        intro he
        have := List.drop_eq_nil_iff.mp he
        omega)
      hcc (fun w hw' => hclean w (List.mem_of_mem_drop hw')) hlast]
    rw [hflat]
    exact List.take_append_drop _ words
  · rw [if_neg hrem]
    rw [hflat]
    have hge : words.length ≤ (fbGo words total diar_segments 0).2 := by
      rcases not_and_or.mp hrem with h | h
      · omega
      · exact absurd hne h
    exact List.take_of_length_le hge

/-- Witness: five words over two turns; the spec-style example returns all
words in order. -/
theorem fallback_merge_preserves_words_witness :
    ((fallback_merge_with_full_text "one two three four five"
      [⟨"S0", 0, 1000⟩, ⟨"S1", 1000, 2000⟩]).map
      (fun m => pySplit m.text)).flatten
      = pySplit "one two three four five" :=
  fallback_merge_preserves_words "one two three four five"
    [⟨"S0", 0, 1000⟩, ⟨"S1", 1000, 2000⟩] (by decide) (by simp) (by decide)

/-! ## Consecutive-same-speaker merge: idempotence -/

theorem mergeGo_head : ∀ (rest : List SpeakerSegment) (cur : SpeakerSegment),
    ∃ t h, mergeGo cur rest = h :: t ∧ h.start_ms = cur.start_ms ∧
      h.speaker_id = cur.speaker_id
  | [], cur => ⟨[], cur, rfl, rfl, rfl⟩
  | seg :: rest, cur => by
    rw [mergeGo]
    by_cases hcond : seg.speaker_id = cur.speaker_id ∧
        seg.start_ms - cur.end_ms ≤ 2000
    · rw [if_pos hcond]
      obtain ⟨t, h, heq, h1, h2⟩ := mergeGo_head rest _
      exact ⟨t, h, heq, h1, h2⟩
    · rw [if_neg hcond]
      exact ⟨mergeGo seg rest, cur, rfl, rfl, rfl⟩

theorem mergeGo_chain : ∀ (rest : List SpeakerSegment) (cur : SpeakerSegment),
    List.Pairwise leStart (cur :: rest) →
    List.Chain' mergeAdjOk (mergeGo cur rest)
  | [], cur, _ => by simp [mergeGo]
  | seg :: rest, cur, hpair => by
    rw [mergeGo]
    by_cases hcond : seg.speaker_id = cur.speaker_id ∧
        seg.start_ms - cur.end_ms ≤ 2000
    · rw [if_pos hcond]
      apply mergeGo_chain rest
      refine List.pairwise_cons.mpr ⟨?_, ?_⟩
      · intro b hb
        exact (List.pairwise_cons.mp hpair).1 b (by simp [hb])
      · exact (List.pairwise_cons.mp (List.pairwise_cons.mp hpair).2).2
    · rw [if_neg hcond]
      obtain ⟨t, h, heq, h1, h2⟩ := mergeGo_head rest seg
      rw [heq]
      refine List.chain'_cons.mpr ⟨?_, ?_⟩
      · refine ⟨?_, ?_⟩
        · show cur.start_ms ≤ h.start_ms
          rw [h1]
          exact (List.pairwise_cons.mp hpair).1 seg (by simp)
        · rw [h1, h2]
          exact hcond
      · rw [← heq]
        exact mergeGo_chain rest seg (List.pairwise_cons.mp hpair).2

theorem mergeGo_no_merge : ∀ (rest : List SpeakerSegment) (cur : SpeakerSegment),
    List.Chain' (fun a b =>
      ¬ (b.speaker_id = a.speaker_id ∧ b.start_ms - a.end_ms ≤ 2000))
      (cur :: rest) →
    mergeGo cur rest = cur :: rest
  | [], cur, _ => rfl
  | seg :: rest, cur, hchain => by
    rw [mergeGo]
    rw [if_neg (List.chain'_cons.mp hchain).1]
    rw [mergeGo_no_merge rest seg (List.chain'_cons.mp hchain).2]

/--
C5: `merge_consecutive_same_speaker` is idempotent: applying it twice to
any list of speaker-tagged segments yields exactly the result of applying
it once.
-/
theorem merge_consecutive_same_speaker_idempotent
    (segments : List SpeakerSegment) :
    merge_consecutive_same_speaker (merge_consecutive_same_speaker segments)
      = merge_consecutive_same_speaker segments := by
  unfold merge_consecutive_same_speaker
  cases hs : List.insertionSort leStart segments with
  | nil => rfl
  | cons first rest =>
    have hpair : List.Pairwise leStart (first :: rest) := by
      rw [← hs]
      exact List.sorted_insertionSort leStart segments
    have hchain := mergeGo_chain rest first hpair
    have hsorted : List.Sorted leStart (mergeGo first rest) :=
      List.chain'_iff_pairwise.mp (hchain.imp (fun a b hab => hab.1))
    show (match List.insertionSort leStart (mergeGo first rest) with
      | [] => ([] : List SpeakerSegment)
      | f :: r => mergeGo f r) = mergeGo first rest
    rw [hsorted.insertionSort_eq]
    obtain ⟨t, h, heq, _, _⟩ := mergeGo_head rest first
    have hchain' : List.Chain' mergeAdjOk (h :: t) := heq ▸ hchain
    rw [heq]
    show mergeGo h t = h :: t
    exact mergeGo_no_merge t h (hchain'.imp (fun a b hab => hab.2))

end FastAccent
